import Mathlib

/-!
Verification of the mr-contractor-viewer converters.

This file gives a shallow embedding of the two core programs of the
repository:

* `dot2mr.py` — the "structurer": it turns a dependency graph (tasks and
  precedence edges) into an expression tree built from `Node`, `Sequence`
  and `Parallel`, via topological layering (`networkx.topological_generations`),
  sequence-run collapsing (`find_direct_sequence_paths`) and grouping by
  sorted successor signature.
* `mr2dot.py` — the "flattener": `convert_to_dot` with its helpers
  `extract_nodes`, `generate_edges` and `extract_entry_nodes`, which turns an
  expression tree back into a dependency graph.

Graphs are lists of node names and edge pairs; the list order models the
insertion order of nodes and edges in the `networkx` graph (which determines
the iteration order the Python code observes).  Machine-level behaviour that
the Python code relies on (dict insertion order, `sorted`, set deduplication)
is embedded explicitly.
-/

/-! ## String ordering

Python's `sorted` compares strings lexicographically by code point, which is
the same order as Lean's `String.lt`.  Lean's built-in `String.ltb` does not
reduce inside the kernel, so we implement the comparison recursively over the
character lists and prove it equivalent to the standard order. -/

/-- Lexicographic strict comparison of character lists by code point. -/
def lexLt : List Char → List Char → Bool
  | [], [] => false
  | [], _ :: _ => true
  | _ :: _, [] => false
  | a :: as, b :: bs => if a < b then true else if b < a then false else lexLt as bs

/-- Strict lexicographic order on strings, kernel-computable. -/
def strLtB (a b : String) : Bool := lexLt a.data b.data

/-- Non-strict lexicographic order on strings, kernel-computable. -/
def strLeB (a b : String) : Bool := !(strLtB b a)

theorem lexLt_iff (as bs : List Char) : lexLt as bs = true ↔ List.Lex (· < ·) as bs := by
  induction as generalizing bs with
  | nil =>
    cases bs with
    | nil =>
      simp only [lexLt, Bool.false_eq_true, false_iff]
      intro h; cases h
    | cons b bs =>
      simp only [lexLt, true_iff]
      exact List.Lex.nil
  | cons a as ih =>
    cases bs with
    | nil =>
      simp only [lexLt, Bool.false_eq_true, false_iff]
      intro h; cases h
    | cons b bs =>
      by_cases hab : a < b
      · simp only [lexLt, if_pos hab, true_iff]
        exact List.Lex.rel hab
      · by_cases hba : b < a
        · simp only [lexLt, if_neg hab, if_pos hba, Bool.false_eq_true, false_iff]
          intro h
          cases h with
          | cons h => exact lt_irrefl _ hba
          | rel h => exact hab h
        · have heq : a = b := le_antisymm (not_lt.mp hba) (not_lt.mp hab)
          subst heq
          simp only [lexLt, if_neg hab, if_neg hba]
          rw [ih bs]
          constructor
          · intro h; exact List.Lex.cons h
          · intro h
            cases h with
            | cons h => exact h
            | rel h => exact absurd h hab

theorem strLtB_iff (a b : String) : strLtB a b = true ↔ a < b := by
  rw [String.lt_iff_toList_lt]
  exact lexLt_iff a.data b.data

theorem strLeB_iff (a b : String) : strLeB a b = true ↔ a ≤ b := by
  unfold strLeB
  rw [Bool.not_eq_true', ← not_lt]
  constructor
  · intro h hlt
    rw [← strLtB_iff b a] at hlt
    simp [h] at hlt
  · intro h
    by_contra hne
    rw [Bool.not_eq_false, strLtB_iff] at hne
    exact h hne

/-- The sorting relation used to model Python's `sorted` on strings. -/
def strLeR (a b : String) : Prop := strLeB a b = true

instance : DecidableRel strLeR := fun _ _ => inferInstanceAs (Decidable (_ = true))

instance : IsTotal String strLeR :=
  ⟨fun a b => by
    unfold strLeR
    rw [strLeB_iff, strLeB_iff]
    exact le_total a b⟩

instance : IsTrans String strLeR :=
  ⟨fun a b c hab hbc => by
    unfold strLeR at *
    rw [strLeB_iff] at *
    exact le_trans hab hbc⟩

/-- Model of Python `sorted` on a list of strings. -/
def pySorted (l : List String) : List String := l.insertionSort strLeR

theorem pySorted_perm (l : List String) : (pySorted l).Perm l :=
  List.perm_insertionSort strLeR l

theorem pySorted_sorted (l : List String) : List.Sorted (· ≤ ·) (pySorted l) := by
  have h := List.sorted_insertionSort strLeR l
  exact h.imp (fun hab => (strLeB_iff _ _).mp hab)

/-! ## The dependency graph model

A `Graph` is the node list and edge list of a `networkx.DiGraph`, in
insertion order.  `successors`/`predecessors` enumerate direct neighbours in
edge-insertion order, as the adjacency structure of `networkx` does. -/

/-- Dependency graph: task names plus precedence edges, in insertion order. -/
structure Graph where
  nodes : List String
  edges : List (String × String)
deriving DecidableEq, Repr

/-- Well-formedness that `networkx` guarantees: no duplicate nodes, no
duplicate edges, and every edge endpoint is a node of the graph. -/
def Graph.WF (g : Graph) : Prop :=
  g.nodes.Nodup ∧ g.edges.Nodup ∧ ∀ e ∈ g.edges, e.1 ∈ g.nodes ∧ e.2 ∈ g.nodes

instance (g : Graph) : Decidable g.WF := by
  unfold Graph.WF
  infer_instance

/-- Direct successors of a node, in edge-insertion order. -/
def successors (g : Graph) (n : String) : List String :=
  (g.edges.filter (fun e => e.1 == n)).map (·.2)

/-- Direct predecessors of a node, in edge-insertion order. -/
def predecessors (g : Graph) (n : String) : List String :=
  (g.edges.filter (fun e => e.2 == n)).map (·.1)

theorem mem_successors {g : Graph} {a b : String} :
    b ∈ successors g a ↔ (a, b) ∈ g.edges := by
  unfold successors
  simp only [List.mem_map, List.mem_filter, beq_iff_eq]
  constructor
  · rintro ⟨⟨x, y⟩, ⟨hmem, hx⟩, hy⟩
    cases hx; cases hy; exact hmem
  · intro h; exact ⟨(a, b), ⟨h, rfl⟩, rfl⟩

theorem mem_predecessors {g : Graph} {a b : String} :
    a ∈ predecessors g b ↔ (a, b) ∈ g.edges := by
  unfold predecessors
  simp only [List.mem_map, List.mem_filter, beq_iff_eq]
  constructor
  · rintro ⟨⟨x, y⟩, ⟨hmem, hy⟩, hx⟩
    cases hx; cases hy; exact hmem
  · intro h; exact ⟨(a, b), ⟨h, rfl⟩, rfl⟩

/-! ## Topological generations

Models `networkx.topological_generations`: generation 0 is the set of nodes
with no predecessors; generation k+1 is the set of remaining nodes all of
whose predecessors lie in generations up to k (longest-path layering).  The
library raises `NetworkXUnfeasible` when the peeling stalls before consuming
every node, which `generate_component_structure` converts into its cycle
error.  Within a generation we keep the nodes in the graph's node order; the
claims settled in this file do not depend on the within-generation order the
library produces. -/

/-- Error raised on a cyclic input graph (the `ValueError` of `dot2mr.py`,
called CycleError by the specification). -/
inductive CycleError where
  | cycle : CycleError
deriving DecidableEq, Repr

/-- Nodes of `remaining` that have no predecessor inside `remaining`. -/
def nextLayer (g : Graph) (remaining : List String) : List String :=
  remaining.filter (fun n => (predecessors g n).all (fun p => !(decide (p ∈ remaining))))

/-- Iteratively peel generations off the remaining node set.  The fuel is the
number of remaining nodes; every successful round removes at least one node,
so fuel exhaustion with a nonempty remainder only happens on cyclic inputs,
where it reports the cycle error. -/
def peelLayers (g : Graph) : Nat → List String → Except CycleError (List (List String))
  | 0, remaining => if remaining = [] then .ok [] else .error .cycle
  | fuel + 1, remaining =>
    if remaining = [] then .ok []
    else
      let layer := nextLayer g remaining
      if layer = [] then .error .cycle
      else
        (peelLayers g fuel (remaining.filter (fun n => !(decide (n ∈ layer))))).map
          (fun rest => layer :: rest)

/-- Model of `networkx.topological_generations` applied to the whole graph. -/
def topological_generations (g : Graph) : Except CycleError (List (List String)) :=
  peelLayers g g.nodes.length g.nodes

/-! ## The expression tree -/

/-- Expression tree produced by the structurer and consumed by the flattener:
the `{'type': 'Node'/'Sequence'/'Parallel'}` dictionaries of the Python code
as a closed sum type. -/
inductive Structure where
  | node : String → Structure
  | seq : List Structure → Structure
  | par : List Structure → Structure
deriving Repr

mutual

/-- Structural equality test for expression trees. -/
def Structure.beq : Structure → Structure → Bool
  | .node a, .node b => a == b
  | .seq as, .seq bs => Structure.beqList as bs
  | .par as, .par bs => Structure.beqList as bs
  | _, _ => false

/-- Structural equality test for lists of expression trees. -/
def Structure.beqList : List Structure → List Structure → Bool
  | [], [] => true
  | a :: as, b :: bs => Structure.beq a b && Structure.beqList as bs
  | _, _ => false

end

mutual

theorem Structure.beq_iff : ∀ a b : Structure, Structure.beq a b = true ↔ a = b
  | .node a, .node b => by simp [Structure.beq]
  | .node _, .seq _ => by simp [Structure.beq]
  | .node _, .par _ => by simp [Structure.beq]
  | .seq _, .node _ => by simp [Structure.beq]
  | .seq as, .seq bs => by
    simp only [Structure.beq, Structure.seq.injEq]
    exact Structure.beqList_iff as bs
  | .seq _, .par _ => by simp [Structure.beq]
  | .par _, .node _ => by simp [Structure.beq]
  | .par _, .seq _ => by simp [Structure.beq]
  | .par as, .par bs => by
    simp only [Structure.beq, Structure.par.injEq]
    exact Structure.beqList_iff as bs

theorem Structure.beqList_iff : ∀ as bs : List Structure,
    Structure.beqList as bs = true ↔ as = bs
  | [], [] => by simp [Structure.beqList]
  | [], _ :: _ => by simp [Structure.beqList]
  | _ :: _, [] => by simp [Structure.beqList]
  | a :: as, b :: bs => by
    simp only [Structure.beqList, Bool.and_eq_true, List.cons.injEq]
    exact and_congr (Structure.beq_iff a b) (Structure.beqList_iff as bs)

end

instance : DecidableEq Structure := fun a b =>
  decidable_of_iff (Structure.beq a b = true) (Structure.beq_iff a b)

/-! ## The structurer (`dot2mr.py`, `generate_component_structure`)

The sequence-run detector of `find_direct_sequence_paths` follows, from a
start node, the unique successor as long as that successor has a unique
predecessor.  We expose the single step as `seqStep` and iterate it with
fuel; on the acyclic graphs on which the Python loop runs, a run visits
pairwise distinct nodes, so `g.nodes.length` steps of fuel are enough to
reproduce the unbounded `while True` loop. -/

/-- One step of the sequence-run walk: the unique successor of `c`, provided
that successor has a unique predecessor. -/
def seqStep (g : Graph) (c : String) : Option String :=
  match successors g c with
  | [next] => if (predecessors g next).length = 1 then some next else none
  | _ => none

/-- Iterate `seqStep` collecting the visited nodes (the run minus its start). -/
def followSeq (g : Graph) : Nat → String → List String
  | 0, _ => []
  | fuel + 1, c =>
    match seqStep g c with
    | some n => n :: followSeq g fuel n
    | none => []

/-- Model of `find_direct_sequence_paths` for a single start node: the path
starting at `node` (always nonempty; the Python dict records it only when its
length exceeds 1, which callers test via the path length). -/
def find_direct_sequence_path (g : Graph) (node : String) : List String :=
  node :: followSeq g g.nodes.length node

/-- Sorted successor list of a node: the dict key `tuple(sorted(successors))`
used to group nodes of a generation. -/
def succKey (g : Graph) (n : String) : List String :=
  pySorted (successors g n)

/-- Insert a node into the association list of successor groups, preserving
first-occurrence key order (Python dict insertion order). -/
def insertGroup (key : List String) (n : String) :
    List (List String × List String) → List (List String × List String)
  | [] => [(key, [n])]
  | (k, ms) :: rest =>
    if k = key then (k, ms ++ [n]) :: rest else (k, ms) :: insertGroup key n rest

/-- Group the nodes of a generation by their sorted successor signature, in
first-occurrence order; members keep generation order. -/
def successor_groups (g : Graph) (layer : List String) : List (List String × List String) :=
  layer.foldl (fun acc n => insertGroup (succKey g n) n acc) []

/-- Emit one successor group: a singleton group attempts a sequence run and
otherwise emits a bare node; a larger group emits its members as sibling
nodes.  Returns the emitted structures together with the node names marked
consumed (the `processed_nodes` updates of the Python code). -/
def emitGroup (g : Graph) : List String → List Structure × List String
  | [n] =>
    let path := find_direct_sequence_path g n
    if 1 < path.length then ([.seq (path.map .node)], path) else ([.node n], [n])
  | ns => (ns.map .node, ns)

/-- Process the unconsumed nodes of one generation.  A lone node in a
non-final generation is handled like a singleton group (lines 62-73 of
`dot2mr.py`); otherwise the generation is grouped by successor signature and
the group results are wrapped in a `Parallel` exactly when more than one
child was produced. -/
def layerResult (g : Graph) (current : List String) (isLast : Bool) :
    List Structure × List String :=
  if current.length = 1 ∧ isLast = false then emitGroup g current
  else
    let children :=
      (successor_groups g current).foldl
        (fun acc gp =>
          let r := emitGroup g gp.2
          (acc.1 ++ r.1, acc.2 ++ r.2))
        ([], [])
    (if 1 < children.1.length then [.par children.1] else children.1, children.2)

/-- Walk the generations in order, skipping nodes already consumed by an
earlier sequence run, and accumulate the per-generation results (the main
loop of `generate_component_structure`). -/
def buildLayers (g : Graph) (processed : List String) : List (List String) → List Structure
  | [] => []
  | layer :: rest =>
    let current := layer.filter (fun n => !(decide (n ∈ processed)))
    if current = [] then buildLayers g processed rest
    else
      let out := layerResult g current (rest = [])
      out.1 ++ buildLayers g (processed ++ out.2) rest

/-- Final collapse of the accumulated per-generation results (lines 112-115
of `dot2mr.py`): a single result is returned as is, otherwise the list is
wrapped in a `Sequence`. -/
def combineLayerResults : List Structure → Structure
  | [t] => t
  | ts => .seq ts

/-- Model of `generate_component_structure`: layer the component, special-case
the empty and single-node graphs, then combine the per-generation results
into a `Sequence` unless exactly one result was produced. -/
def generate_component_structure (g : Graph) : Except CycleError (Option Structure) :=
  match topological_generations g with
  | .error e => .error e
  | .ok [] => .ok none
  | .ok [[n]] => .ok (some (.node n))
  | .ok layers => .ok (some (combineLayerResults (buildLayers g [] layers)))

instance {e a : Type} [DecidableEq e] [DecidableEq a] : DecidableEq (Except e a) := fun x y =>
  match x, y with
  | .error u, .error v =>
    if h : u = v then isTrue (by rw [h]) else isFalse (by intro hc; cases hc; exact h rfl)
  | .error _, .ok _ => isFalse (by intro hc; cases hc)
  | .ok _, .error _ => isFalse (by intro hc; cases hc)
  | .ok u, .ok v =>
    if h : u = v then isTrue (by rw [h]) else isFalse (by intro hc; cases hc; exact h rfl)

/-! ## Weakly connected components and the command-line composition

Models `weakly_connected_components` and the composition in `main` of
`dot2mr.py`: one structure per component, wrapped in a root `Parallel` when
there is more than one component.  Components are discovered in node order,
as the `networkx` generator yields them. -/

/-- Neighbours of a node with edge direction ignored. -/
def undirectedNbrs (g : Graph) (n : String) : List String :=
  successors g n ++ predecessors g n

/-- One round of component growth: add every graph node adjacent to the
current set. -/
def growComponent (g : Graph) (acc : List String) : List String :=
  acc ++ g.nodes.filter
    (fun m => !(decide (m ∈ acc)) && (undirectedNbrs g m).any (fun p => decide (p ∈ acc)))

/-- Iterate component growth to a fixed point (fuel: one round per node). -/
def iterGrow (g : Graph) : Nat → List String → List String
  | 0, acc => acc
  | fuel + 1, acc => iterGrow g fuel (growComponent g acc)

/-- Weakly connected component containing `n`. -/
def componentOf (g : Graph) (n : String) : List String :=
  iterGrow g g.nodes.length [n]

/-- Model of `weakly_connected_components`: components in the order of their
first node. -/
def weakComponents (g : Graph) : List (List String) :=
  g.nodes.foldl
    (fun comps n => if comps.any (fun c => decide (n ∈ c)) then comps else comps ++ [componentOf g n])
    []

/-- Model of `nx_graph.subgraph(component)`: nodes and edges restricted to a
component, keeping the original insertion order. -/
def subgraphOf (g : Graph) (comp : List String) : Graph :=
  { nodes := g.nodes.filter (fun n => decide (n ∈ comp)),
    edges := g.edges.filter (fun e => decide (e.1 ∈ comp) && decide (e.2 ∈ comp)) }

/-- Structure each component in order, propagating the cycle error of any
component as `main` does (it exits on the first failing component).  A
component is nonempty, so `generate_component_structure` never yields `none`
for it; that unreachable case is skipped. -/
def collectComponents (g : Graph) : List (List String) → Except CycleError (List Structure)
  | [] => .ok []
  | c :: rest =>
    match generate_component_structure (subgraphOf g c) with
    | .error e => .error e
    | .ok none => collectComponents g rest
    | .ok (some t) => (collectComponents g rest).map (fun ts => t :: ts)

/-- Model of `main` of `dot2mr.py` up to printing: build one structure per
weakly connected component and wrap them in a root `Parallel` exactly when
there are at least two (`none` models the "Empty graph" early return). -/
def dot2mrMain (g : Graph) : Except CycleError (Option Structure) :=
  (collectComponents g (weakComponents g)).map
    (fun ts =>
      match ts with
      | [] => none
      | [t] => some t
      | ts => some (.par ts))

/-! ## The flattener (`mr2dot.py`, `convert_to_dot`)

`generate_edges` returns, besides the edge list, the exit points of the
subtree.  In the Python code the exits of an empty `Sequence` are `None`
(the loop never ran), which is distinguishable from the empty list `[]` only
in that a `Parallel` whose child returned `None` crashes on
`all_exit_nodes.extend(None)` with a `TypeError`; we model the exits as an
`Option (List String)` and that crash as an error value.  The bipartite join
of a `Sequence` is guarded by the truthiness test `if prev_exit_nodes:`,
which skips both `None` and `[]`. -/

/-- Runtime error of the Python flattener (the `TypeError` raised by
`extend(None)` on malformed input; `main` catches it as a generic
conversion error). -/
inductive PyError where
  | typeError : PyError
deriving DecidableEq, Repr

mutual

/-- Model of `extract_nodes`: every leaf name, in tree order, duplicates
included. -/
def extract_nodes : Structure → List String
  | .node n => [n]
  | .seq cs => extract_nodes_list cs
  | .par cs => extract_nodes_list cs

/-- Leaf names of a list of subtrees, in order. -/
def extract_nodes_list : List Structure → List String
  | [] => []
  | c :: cs => extract_nodes c ++ extract_nodes_list cs

end

mutual

/-- Model of `extract_entry_nodes`: the tasks of a subtree with no
predecessor inside it — the leaf itself, the first child's entries for a
`Sequence` (or `[]` when it has no children), the union of the children's
entries for a `Parallel`. -/
def extract_entry_nodes : Structure → List String
  | .node n => [n]
  | .seq [] => []
  | .seq (c :: _) => extract_entry_nodes c
  | .par cs => extract_entry_nodes_list cs

/-- Entry nodes of a list of parallel children, concatenated in order. -/
def extract_entry_nodes_list : List Structure → List String
  | [] => []
  | c :: cs => extract_entry_nodes c ++ extract_entry_nodes_list cs

end

/-- Bipartite join used by a `Sequence`: an edge from every exit point of the
previous child to every entry point of the next, in the loop order of the
Python code. -/
def bipartite (xs ys : List String) : List (String × String) :=
  xs.foldr (fun x acc => ys.map (fun y => (x, y)) ++ acc) []

/-- Bipartite join contributed before a `Sequence` child: the truthiness
test `if prev_exit_nodes:` skips both `None` and the empty list. -/
def joinsFor (prev : Option (List String)) (c : Structure) : List (String × String) :=
  match prev with
  | some (p :: ps) => bipartite (p :: ps) (extract_entry_nodes c)
  | _ => []

mutual

/-- Model of `generate_edges`: edge list and exit points of a subtree.  A
leaf has no edges and exits at itself; a `Sequence` concatenates its
children's edges, adds the bipartite join from the previous child's exits to
the current child's entries whenever the previous exits are truthy, and
exits at its last child's exits (`none` when it has no children); a
`Parallel` concatenates its children's edges and exits, crashing when a
child's exits are `None`. -/
def generate_edges : Structure → Except PyError (List (String × String) × Option (List String))
  | .node n => .ok ([], some [n])
  | .seq cs => generate_edges_seq cs none
  | .par cs => generate_edges_par cs

/-- Fold of the `Sequence` loop of `generate_edges`; `prev` is
`prev_exit_nodes`. -/
def generate_edges_seq (cs : List Structure) (prev : Option (List String)) :
    Except PyError (List (String × String) × Option (List String)) :=
  match cs with
  | [] => .ok ([], prev)
  | c :: rest =>
    match generate_edges c with
    | .error e => .error e
    | .ok (ce, cx) =>
      match generate_edges_seq rest cx with
      | .error e => .error e
      | .ok (re, rx) => .ok (ce ++ joinsFor prev c ++ re, rx)

/-- Fold of the `Parallel` loop of `generate_edges`. -/
def generate_edges_par (cs : List Structure) :
    Except PyError (List (String × String) × Option (List String)) :=
  match cs with
  | [] => .ok ([], some [])
  | c :: rest =>
    match generate_edges c with
    | .error e => .error e
    | .ok (_, none) => .error .typeError
    | .ok (ce, some cx) =>
      match generate_edges_par rest with
      | .error e => .error e
      | .ok (re, rx) => .ok (ce ++ re, some (cx ++ rx.getD []))

end

/-- Deduplicate a list keeping first occurrences, given the elements already
seen: the effect of Python's `set` on the node list before sorting, and of
the `added_edges` loop on the edge list. -/
def dedupFirst {α : Type} [DecidableEq α] (seen : List α) : List α → List α
  | [] => []
  | a :: rest =>
    if a ∈ seen then dedupFirst seen rest else a :: dedupFirst (a :: seen) rest

theorem mem_dedupFirst {α : Type} [DecidableEq α] :
    ∀ (l seen : List α) (a : α), a ∈ dedupFirst seen l ↔ a ∈ l ∧ a ∉ seen := by
  intro l
  induction l with
  | nil => intro seen a; simp [dedupFirst]
  | cons b rest ih =>
    intro seen a
    by_cases hb : b ∈ seen
    · rw [dedupFirst, if_pos hb, ih]
      constructor
      · rintro ⟨ha, hs⟩
        exact ⟨List.mem_cons_of_mem b ha, hs⟩
      · rintro ⟨ha, hs⟩
        rcases List.mem_cons.mp ha with hab | ha
        · subst hab; exact absurd hb hs
        · exact ⟨ha, hs⟩
    · rw [dedupFirst, if_neg hb]
      simp only [List.mem_cons, ih]
      constructor
      · rintro (hab | ⟨ha, hs⟩)
        · subst hab; exact ⟨Or.inl rfl, hb⟩
        · exact ⟨Or.inr ha, fun hc => hs (Or.inr hc)⟩
      · rintro ⟨hab | ha, hs⟩
        · exact Or.inl hab
        · by_cases hab : a = b
          · exact Or.inl hab
          · exact Or.inr ⟨ha, fun hc => by
              rcases hc with h | h
              · exact hab h
              · exact hs h⟩

theorem nodup_dedupFirst {α : Type} [DecidableEq α] :
    ∀ (l seen : List α), (dedupFirst seen l).Nodup := by
  intro l
  induction l with
  | nil => intro seen; simp [dedupFirst]
  | cons b rest ih =>
    intro seen
    by_cases hb : b ∈ seen
    · rw [dedupFirst, if_pos hb]; exact ih seen
    · rw [dedupFirst, if_neg hb]
      refine List.nodup_cons.mpr ⟨?_, ih (b :: seen)⟩
      intro hc
      exact ((mem_dedupFirst rest (b :: seen) b).mp hc).2 (List.mem_cons_self b seen)

/-- Model of `convert_to_dot` up to DOT syntax: the node lines (sorted,
deduplicated) and the edge lines (first-occurrence order, deduplicated) of
the emitted document. -/
def convert_to_dot (tree : Structure) :
    Except PyError (List String × List (String × String)) :=
  match generate_edges tree with
  | .error e => .error e
  | .ok (all_edges, _) =>
    .ok (pySorted (dedupFirst [] (extract_nodes tree)), dedupFirst [] all_edges)

/-! ## Example graphs used by the testable properties -/

/-- Diamond graph of the specification: A→B, A→C, B→D, C→D. -/
def diamondGraph : Graph :=
  ⟨["A", "B", "C", "D"], [("A", "B"), ("A", "C"), ("B", "D"), ("C", "D")]⟩

/-- V-join graph A→C, B→C, in two representations with equal node and edge
sets but different node insertion order. -/
def vJoinGraph : Graph := ⟨["A", "B", "C"], [("A", "C"), ("B", "C")]⟩

/-- The V-join graph with the two source nodes inserted in the other order. -/
def vJoinGraphReordered : Graph := ⟨["B", "A", "C"], [("A", "C"), ("B", "C")]⟩

/-- Linear chain of the specification: A→B, B→C, C→D. -/
def chainGraph : Graph :=
  ⟨["A", "B", "C", "D"], [("A", "B"), ("B", "C"), ("C", "D")]⟩

/-- The three-cycle of the specification: A→B, B→C, C→A. -/
def triangleGraph : Graph :=
  ⟨["A", "B", "C"], [("A", "B"), ("B", "C"), ("C", "A")]⟩

/-- Acyclic single-component graph A→C, B→C, B→D, on which flattening the
structured tree invents an A→D ordering. -/
def joinGraph : Graph :=
  ⟨["A", "B", "C", "D"], [("A", "C"), ("B", "C"), ("B", "D")]⟩

/-- One task, no edges. -/
def singleNodeGraph : Graph := ⟨["A"], []⟩

/-- Transitive-closure reachability over an edge list, by fuelled expansion;
`reachesN es f a b` decides whether `b` is reachable from `a` along at least
one and at most `f` edges.  With fuel at least the number of nodes it is the
reachability relation of the graph. -/
def reachesN (es : List (String × String)) : Nat → String → String → Bool
  | 0, _, _ => false
  | f + 1, a, b =>
    es.any (fun e => e.1 == a && (e.2 == b || reachesN es f e.2 b))

/-! ## Cycle rejection (claim C2)

A directed cycle is witnessed by a nonempty edge path from a node back to
itself.  Every node on such a path keeps a predecessor inside the remaining
set at every stage of the generation peeling, so the peeling stalls and
`generate_component_structure` reports the cycle error. -/

/-- Edge path: `isPath g a l` holds when consecutive elements of `a :: l` are
joined by edges of `g`. -/
def isPath (g : Graph) : String → List String → Bool
  | _, [] => true
  | a, b :: rest => decide ((a, b) ∈ g.edges) && isPath g b rest

/-- The graph contains a directed cycle: some nonempty edge path returns to
its start. -/
def HasCycle (g : Graph) : Prop :=
  ∃ a l, a ∈ g.nodes ∧ isPath g a (l ++ [a]) = true

theorem isPath_pred {g : Graph} :
    ∀ (l : List String) (x a : String), isPath g x (l ++ [a]) = true →
      ∀ n ∈ l ++ [a], ∃ p ∈ x :: l, (p, n) ∈ g.edges := by
  intro l
  induction l with
  | nil =>
    intro x a h n hn
    simp only [List.nil_append, List.mem_singleton] at hn
    subst hn
    simp only [isPath, Bool.and_eq_true, decide_eq_true_eq] at h
    exact ⟨x, List.mem_singleton.mpr rfl, h.1⟩
  | cons b l' ih =>
    intro x a h n hn
    simp only [List.cons_append, isPath, Bool.and_eq_true, decide_eq_true_eq] at h
    rcases h with ⟨hxb, hrest⟩
    simp only [List.cons_append, List.mem_cons] at hn
    cases hn with
    | inl hb =>
      subst hb
      exact ⟨x, List.mem_cons_self x _, hxb⟩
    | inr hn =>
      obtain ⟨p, hp, hedge⟩ := ih b a hrest n hn
      exact ⟨p, List.mem_cons_of_mem x hp, hedge⟩

theorem peel_stalls_on_cycle {g : Graph} {S : List String} (hS : S ≠ [])
    (hclosed : ∀ n ∈ S, ∃ p ∈ S, (p, n) ∈ g.edges) :
    ∀ (fuel : Nat) (remaining : List String), (∀ n ∈ S, n ∈ remaining) →
      peelLayers g fuel remaining = .error .cycle := by
  intro fuel
  induction fuel with
  | zero =>
    intro remaining hsub
    have hne : remaining ≠ [] := by
      intro h
      rcases List.exists_mem_of_ne_nil S hS with ⟨n, hn⟩
      have := hsub n hn
      rw [h] at this
      exact absurd this (List.not_mem_nil n)
    simp [peelLayers, hne]
  | succ fuel ih =>
    intro remaining hsub
    have hne : remaining ≠ [] := by
      intro h
      rcases List.exists_mem_of_ne_nil S hS with ⟨n, hn⟩
      have := hsub n hn
      rw [h] at this
      exact absurd this (List.not_mem_nil n)
    have hSnotin : ∀ n ∈ S, n ∉ nextLayer g remaining := by
      intro n hn hmem
      unfold nextLayer at hmem
      rw [List.mem_filter] at hmem
      rcases hmem with ⟨-, hall⟩
      rw [List.all_eq_true] at hall
      obtain ⟨p, hpS, hedge⟩ := hclosed n hn
      have hp : p ∈ predecessors g n := mem_predecessors.mpr hedge
      have := hall p hp
      simp only [Bool.not_eq_true', decide_eq_false_iff_not] at this
      exact this (hsub p hpS)
    by_cases hlayer : nextLayer g remaining = []
    · simp [peelLayers, hne, hlayer]
    · have hsub' : ∀ n ∈ S, n ∈ remaining.filter (fun n => !(decide (n ∈ nextLayer g remaining))) := by
        intro n hn
        rw [List.mem_filter]
        refine ⟨hsub n hn, ?_⟩
        simp only [Bool.not_eq_true', decide_eq_false_iff_not]
        exact hSnotin n hn
      have := ih _ hsub'
      simp only [peelLayers, if_neg hne, if_neg hlayer]
      rw [this]
      rfl

/-- Claim C2: for every well-formed graph containing a directed cycle,
structuring fails with the cycle error — a pure error value, so no output
and no partial result is produced. -/
theorem structuring_rejects_cycles (g : Graph) (hwf : g.WF) (hc : HasCycle g) :
    generate_component_structure g = .error .cycle := by
  obtain ⟨a, l, ha, hpath⟩ := hc
  have hpred := isPath_pred l a a hpath
  have hclosed : ∀ n ∈ a :: l, ∃ p ∈ a :: l, (p, n) ∈ g.edges := by
    intro n hn
    rcases List.mem_cons.mp hn with hna | hnl
    · subst hna
      exact hpred n (List.mem_append.mpr (Or.inr (List.mem_singleton.mpr rfl)))
    · exact hpred n (List.mem_append.mpr (Or.inl hnl))
  have hsub : ∀ n ∈ a :: l, n ∈ g.nodes := by
    intro n hn
    obtain ⟨p, -, hedge⟩ := hclosed n hn
    exact (hwf.2.2 (p, n) hedge).2
  have hstall := peel_stalls_on_cycle (List.cons_ne_nil a l) hclosed g.nodes.length g.nodes hsub
  unfold generate_component_structure topological_generations
  rw [hstall]

/-- Witness for C2 at the concrete triangle {A→B, B→C, C→A}. -/
theorem structuring_rejects_cycles_witness :
    triangleGraph.WF ∧ HasCycle triangleGraph ∧
      generate_component_structure triangleGraph = .error .cycle := by
  have hwf : triangleGraph.WF := by decide
  have hc : HasCycle triangleGraph := ⟨"A", ["B", "C"], by decide, by decide⟩
  exact ⟨hwf, hc, structuring_rejects_cycles triangleGraph hwf hc⟩

/-! ## Concrete structuring and flattening properties -/

/-- Claim C4: the diamond {A→B, A→C, B→D, C→D} structures to
Sequence{A, Parallel{B, C}, D}, and flattening that tree reproduces exactly
the four original edges — in particular neither A→D nor B→C appears. -/
theorem diamond_roundtrip :
    generate_component_structure diamondGraph =
      .ok (some (.seq [.node "A", .par [.node "B", .node "C"], .node "D"])) ∧
    convert_to_dot (.seq [.node "A", .par [.node "B", .node "C"], .node "D"]) =
      .ok (["A", "B", "C", "D"], [("A", "B"), ("A", "C"), ("B", "D"), ("C", "D")]) ∧
    ("A", "D") ∉ [("A", "B"), ("A", "C"), ("B", "D"), ("C", "D")] ∧
    ("B", "C") ∉ [("A", "B"), ("A", "C"), ("B", "D"), ("C", "D")] := by decide

/-- Claim C6: the linear chain {A→B, B→C, C→D} structures to a single
Sequence of four leaves (the whole chain collapses into one sequence run),
and flattening it reproduces exactly the three original edges. -/
theorem chain_roundtrip :
    generate_component_structure chainGraph =
      .ok (some (.seq [.node "A", .node "B", .node "C", .node "D"])) ∧
    convert_to_dot (.seq [.node "A", .node "B", .node "C", .node "D"]) =
      .ok (["A", "B", "C", "D"], [("A", "B"), ("B", "C"), ("C", "D")]) := by decide

/-- Counterexample to claim C8: two graphs with equal node and edge sets but
different node insertion order produce different trees (the Parallel children
of the first generation come out in generation order, which follows node
insertion order), so structuring is not independent of the insertion order of
the input representation. -/
theorem structuring_order_dependent :
    vJoinGraph.nodes.toFinset = vJoinGraphReordered.nodes.toFinset ∧
    vJoinGraph.edges = vJoinGraphReordered.edges ∧
    generate_component_structure vJoinGraph ≠
      generate_component_structure vJoinGraphReordered := by decide

/-- Amended claim C8: structuring is a pure (hence run-to-run deterministic)
function of the graph representation, but the tree it returns depends on the
insertion order of the nodes: on the two set-equal V-join representations it
returns trees whose Parallel children are ordered differently.  Only the
successor-signature grouping key is sorted lexicographically. -/
theorem structuring_depends_on_insertion_order :
    generate_component_structure vJoinGraph =
      .ok (some (.seq [.par [.node "A", .node "B"], .node "C"])) ∧
    generate_component_structure vJoinGraphReordered =
      .ok (some (.seq [.par [.node "B", .node "A"], .node "C"])) := by decide

/-- Counterexample to claim C3: a malformed tree with the task name A on two
leaves is flattened without any error — `convert_to_dot` silently merges the
duplicate and returns a graph, instead of signalling a structure error. -/
theorem flatten_accepts_duplicate_names :
    ¬ (extract_nodes (.par [.node "A", .node "A"])).Nodup ∧
    convert_to_dot (.par [.node "A", .node "A"]) = .ok (["A"], []) := by decide

/-- Amended claim C3: the flattener performs no validation.  A tree with a
duplicated task name is silently merged into one node; a Sequence with an
empty child list silently yields an empty graph; an empty Sequence under a
Parallel raises the generic runtime error of `extend(None)`, not a dedicated
structure error.  A graph is thus not only returned on well-formed input. -/
theorem flatten_does_not_validate :
    convert_to_dot (.par [.node "A", .node "A"]) = .ok (["A"], []) ∧
    convert_to_dot (.seq []) = .ok ([], []) ∧
    convert_to_dot (.par [.seq [], .node "A"]) = .error .typeError := by decide

/-- Lexicographic order on edges, the natural reading of "sorted order" for
the emitted edge lines. -/
def edgeLe (e f : String × String) : Prop :=
  e.1 < f.1 ∨ (e.1 = f.1 ∧ e.2 ≤ f.2)

/-- Counterexample to claim C7: flattening Sequence{Parallel{B, A}, C} emits
the deduplicated edge list in first-occurrence order [B→C, A→C], which is not
sorted; only the node lines are sorted. -/
theorem flatten_edges_not_sorted :
    convert_to_dot (.seq [.par [.node "B", .node "A"], .node "C"]) =
      .ok (["A", "B", "C"], [("B", "C"), ("A", "C")]) ∧
    ¬ List.Sorted edgeLe [("B", "C"), ("A", "C")] := by
  constructor
  · decide
  · intro h
    have hrel := List.rel_of_sorted_cons h ("A", "C") (List.mem_singleton.mpr rfl)
    cases hrel with
    | inl hlt =>
      rw [← strLtB_iff] at hlt
      exact absurd hlt (by decide)
    | inr heq => exact absurd heq.1 (by decide)

/-- Counterexample to claim C1: on the acyclic graph {A→C, B→C, B→D} the
round trip `flatten (structure G)` keeps the node set but not the
reachability relation — the flattened graph contains the spurious ordering
A→D (D is not reachable from A in the input). -/
theorem roundtrip_reachability_not_preserved :
    generate_component_structure joinGraph =
      .ok (some (.seq [.par [.node "A", .node "B"], .par [.node "C", .node "D"]])) ∧
    convert_to_dot (.seq [.par [.node "A", .node "B"], .par [.node "C", .node "D"]]) =
      .ok (["A", "B", "C", "D"], [("A", "C"), ("A", "D"), ("B", "C"), ("B", "D")]) ∧
    reachesN joinGraph.edges 4 "A" "D" = false ∧
    reachesN [("A", "C"), ("A", "D"), ("B", "C"), ("B", "D")] 4 "A" "D" = true := by decide

/-! ## Characterization of the flattening helpers (claim C5)

The specification describes `entry_points` and `edges_and_exits` by
structural equations.  We state those equations as separate definitions
(`specEdges`, `specExits`, with the bipartite joins of consecutive Sequence
children) and prove that on every well-formed expression tree — children
lists nonempty, as the data model requires — the source helpers compute
exactly them, the edge list up to order. -/

mutual

/-- Well-formedness of an expression tree per the data model: `Sequence` and
`Parallel` carry at least one child at every level. -/
def wfTree : Structure → Bool
  | .node _ => true
  | .seq cs => !cs.isEmpty && wfTreeList cs
  | .par cs => !cs.isEmpty && wfTreeList cs

/-- Well-formedness of every tree in a list. -/
def wfTreeList : List Structure → Bool
  | [] => true
  | c :: cs => wfTree c && wfTreeList cs

end

mutual

/-- Exit points as the specification words them: a Leaf exits at itself, a
Sequence at its last child's exit points, a Parallel at the union of its
children's exit points. -/
def specExits : Structure → List String
  | .node n => [n]
  | .seq cs => specExitsSeqD [] cs
  | .par cs => specExitsList cs

/-- Exit points of the last tree of a list, with a default for the empty
list. -/
def specExitsSeqD : List String → List Structure → List String
  | prev, [] => prev
  | _, c :: rest => specExitsSeqD (specExits c) rest

/-- Union (concatenation) of the exit points of a list of trees. -/
def specExitsList : List Structure → List String
  | [] => []
  | c :: cs => specExits c ++ specExitsList cs

end

mutual

/-- Edge set as the specification words it: a Leaf yields no edges; a
Parallel the union of its children's edges; a Sequence the concatenation of
its children's edges plus, for every consecutive child pair, the full
bipartite join from the exit points of the earlier child to the entry points
of the later child. -/
def specEdges : Structure → List (String × String)
  | .node _ => []
  | .seq cs => specEdgesList cs ++ specJoins cs
  | .par cs => specEdgesList cs

/-- Concatenation of the edges of a list of trees. -/
def specEdgesList : List Structure → List (String × String)
  | [] => []
  | c :: cs => specEdges c ++ specEdgesList cs

/-- Bipartite joins of all consecutive child pairs of a Sequence. -/
def specJoins : List Structure → List (String × String)
  | [] => []
  | c :: rest => specJoinsFrom (specExits c) rest

/-- Bipartite joins when the exits of the previous child are `prev`. -/
def specJoinsFrom : List String → List Structure → List (String × String)
  | _, [] => []
  | prev, c :: rest =>
    bipartite prev (extract_entry_nodes c) ++ specJoinsFrom (specExits c) rest

end

theorem extract_entry_nodes_list_eq (cs : List Structure) :
    extract_entry_nodes_list cs = (cs.map extract_entry_nodes).flatten := by
  induction cs with
  | nil => rfl
  | cons c cs ih => simp [extract_entry_nodes_list, ih]

theorem generate_edges_seq_nil (prev : Option (List String)) :
    generate_edges_seq [] prev = .ok ([], prev) := rfl

theorem generate_edges_seq_cons (c : Structure) (rest : List Structure)
    (prev : Option (List String)) {E1 : List (String × String)} {X1 : Option (List String)}
    (h1 : generate_edges c = .ok (E1, X1))
    {E2 : List (String × String)} {X2 : Option (List String)}
    (h2 : generate_edges_seq rest X1 = .ok (E2, X2)) :
    generate_edges_seq (c :: rest) prev = .ok (E1 ++ joinsFor prev c ++ E2, X2) := by
  unfold generate_edges_seq
  rw [h1]
  dsimp only
  rw [h2]

theorem generate_edges_par_cons (c : Structure) (rest : List Structure)
    {E1 : List (String × String)} {X1 : List String}
    (h1 : generate_edges c = .ok (E1, some X1))
    {E2 : List (String × String)} {X2 : List String}
    (h2 : generate_edges_par rest = .ok (E2, some X2)) :
    generate_edges_par (c :: rest) = .ok (E1 ++ E2, some (X1 ++ X2)) := by
  unfold generate_edges_par
  rw [h1]
  dsimp only
  rw [h2]
  rfl

theorem joinsFor_some {prev : List String} (hp : prev ≠ []) (c : Structure) :
    joinsFor (some prev) c = bipartite prev (extract_entry_nodes c) := by
  cases prev with
  | nil => exact absurd rfl hp
  | cons p ps => rfl

mutual

theorem generate_edges_wf : ∀ t : Structure, wfTree t = true →
    ∃ E X, generate_edges t = .ok (E, some X) ∧ X ≠ [] ∧
      E.Perm (specEdges t) ∧ X = specExits t
  | .node n, _ =>
    ⟨[], [n], rfl, by simp, by simp [specEdges], rfl⟩
  | .seq cs, h => by
    simp only [wfTree, Bool.and_eq_true, Bool.not_eq_true', List.isEmpty_eq_false] at h
    obtain ⟨hne, hcs⟩ := h
    cases cs with
    | nil => exact absurd rfl hne
    | cons c rest =>
      simp only [wfTreeList, Bool.and_eq_true] at hcs
      obtain ⟨E1, X1, hgen1, hX1ne, hE1, hX1⟩ := generate_edges_wf c hcs.1
      obtain ⟨E2, X2, hgen2, hX2ne, hE2, hX2⟩ := generate_edges_seq_wf rest X1 hcs.2 hX1ne
      refine ⟨E1 ++ joinsFor none c ++ E2, X2, ?_, hX2ne, ?_, ?_⟩
      · show generate_edges_seq (c :: rest) none = _
        exact generate_edges_seq_cons c rest none hgen1 hgen2
      · show (E1 ++ joinsFor none c ++ E2).Perm (specEdges (.seq (c :: rest)))
        have hjoin : joinsFor none c = [] := rfl
        have h2 : E2.Perm (specEdgesList rest ++ specJoinsFrom (specExits c) rest) := by
          rw [← hX1]; exact hE2
        have hstep : (E1 ++ E2).Perm
            (specEdges c ++ (specEdgesList rest ++ specJoinsFrom (specExits c) rest)) :=
          hE1.append h2
        rw [hjoin, List.append_nil]
        refine hstep.trans ?_
        show (specEdges c ++ (specEdgesList rest ++ specJoinsFrom (specExits c) rest)).Perm
          (specEdgesList (c :: rest) ++ specJoins (c :: rest))
        simp only [specEdgesList, specJoins, List.append_assoc]
        exact .refl _
      · rw [hX2, hX1]
        rfl
  | .par cs, h => by
    simp only [wfTree, Bool.and_eq_true, Bool.not_eq_true', List.isEmpty_eq_false] at h
    obtain ⟨hne, hcs⟩ := h
    obtain ⟨E, X, hgen, hE, hX, hXne⟩ := generate_edges_par_wf cs hcs
    exact ⟨E, X, hgen, hXne hne, hE, hX⟩

theorem generate_edges_seq_wf : ∀ (cs : List Structure) (prev : List String),
    wfTreeList cs = true → prev ≠ [] →
      ∃ E X, generate_edges_seq cs (some prev) = .ok (E, some X) ∧ X ≠ [] ∧
        E.Perm (specEdgesList cs ++ specJoinsFrom prev cs) ∧ X = specExitsSeqD prev cs
  | [], prev, _, hp =>
    ⟨[], prev, rfl, hp, by simp [specEdgesList, specJoinsFrom], rfl⟩
  | c :: rest, prev, h, hp => by
    simp only [wfTreeList, Bool.and_eq_true] at h
    obtain ⟨E1, X1, hgen1, hX1ne, hE1, hX1⟩ := generate_edges_wf c h.1
    obtain ⟨E2, X2, hgen2, hX2ne, hE2, hX2⟩ := generate_edges_seq_wf rest X1 h.2 hX1ne
    refine ⟨E1 ++ joinsFor (some prev) c ++ E2, X2, ?_, hX2ne, ?_, ?_⟩
    · exact generate_edges_seq_cons c rest (some prev) hgen1 hgen2
    · rw [joinsFor_some hp c]
      have h2 : E2.Perm (specEdgesList rest ++ specJoinsFrom (specExits c) rest) := by
        rw [← hX1]; exact hE2
      have hstep : (E1 ++ bipartite prev (extract_entry_nodes c) ++ E2).Perm
          (specEdges c ++ bipartite prev (extract_entry_nodes c) ++
            (specEdgesList rest ++ specJoinsFrom (specExits c) rest)) :=
        (hE1.append (.refl _)).append h2
      refine hstep.trans ?_
      show (specEdges c ++ bipartite prev (extract_entry_nodes c) ++
          (specEdgesList rest ++ specJoinsFrom (specExits c) rest)).Perm
        (specEdgesList (c :: rest) ++ specJoinsFrom prev (c :: rest))
      simp only [specEdgesList, specJoinsFrom, List.append_assoc]
      refine List.Perm.append_left (specEdges c) ?_
      have hcomm : (bipartite prev (extract_entry_nodes c) ++ specEdgesList rest).Perm
          (specEdgesList rest ++ bipartite prev (extract_entry_nodes c)) :=
        List.perm_append_comm
      have := hcomm.append_right (specJoinsFrom (specExits c) rest)
      rw [List.append_assoc, List.append_assoc] at this
      exact this
    · rw [hX2, hX1]
      rfl

theorem generate_edges_par_wf : ∀ cs : List Structure, wfTreeList cs = true →
    ∃ E X, generate_edges_par cs = .ok (E, some X) ∧ E.Perm (specEdgesList cs) ∧
      X = specExitsList cs ∧ (cs ≠ [] → X ≠ [])
  | [], _ => ⟨[], [], rfl, .refl _, rfl, fun hc => absurd rfl hc⟩
  | c :: rest, h => by
    simp only [wfTreeList, Bool.and_eq_true] at h
    obtain ⟨E1, X1, hgen1, hX1ne, hE1, hX1⟩ := generate_edges_wf c h.1
    obtain ⟨E2, X2, hgen2, hE2, hX2, -⟩ := generate_edges_par_wf rest h.2
    refine ⟨E1 ++ E2, X1 ++ X2, generate_edges_par_cons c rest hgen1 hgen2,
      hE1.append hE2, by rw [hX1, hX2]; rfl, ?_⟩
    intro _
    cases X1 with
    | nil => exact absurd rfl hX1ne
    | cons x xs => simp

end

/-- Claim C5: the flattening helpers satisfy the equations of the
specification on every well-formed expression tree.  Entry points: a Leaf is
its own entry point, a Sequence has only its first child's entry points, a
Parallel the union of its children's.  Edges and exits: a Leaf yields no
edges and exits at itself; a Parallel yields the union of its children's
edges and exits; a Sequence yields its children's edges plus the full
bipartite join for every consecutive child pair and exits at its last
child's exits — the edge list up to order, exits exactly. -/
theorem flatten_helpers_characterized :
    (∀ n, extract_entry_nodes (.node n) = [n]) ∧
    (∀ c cs, extract_entry_nodes (.seq (c :: cs)) = extract_entry_nodes c) ∧
    (∀ cs, extract_entry_nodes (.par cs) = (cs.map extract_entry_nodes).flatten) ∧
    (∀ t : Structure, wfTree t = true →
      ∃ E X, generate_edges t = .ok (E, some X) ∧ X ≠ [] ∧
        E.Perm (specEdges t) ∧ X = specExits t) :=
  ⟨fun _ => rfl, fun _ _ => rfl,
   fun cs => extract_entry_nodes_list_eq cs,
   generate_edges_wf⟩

/-- Witness for C5 at the tree Sequence{Parallel{A, B}, C}: the helpers
produce the bipartite join {A→C, B→C} and exit at C. -/
theorem flatten_helpers_characterized_witness :
    wfTree (.seq [.par [.node "A", .node "B"], .node "C"]) = true ∧
    (∃ E X, generate_edges (.seq [.par [.node "A", .node "B"], .node "C"]) = .ok (E, some X) ∧
      X ≠ [] ∧ E.Perm (specEdges (.seq [.par [.node "A", .node "B"], .node "C"])) ∧
      X = specExits (.seq [.par [.node "A", .node "B"], .node "C"])) :=
  ⟨by decide, flatten_helpers_characterized.2.2.2 _ (by decide)⟩

/-! ## Output discipline of `convert_to_dot` (claim C7) -/

/-- Amended claim C7: on every well-formed expression tree the root call
returns the full task set as its node lines — sorted, deduplicated — and the
deduplicated edge set as its edge lines; the edge lines are in deterministic
first-occurrence order (the output of the pure function is fixed by the
tree), but not sorted. -/
theorem convert_to_dot_output_discipline (t : Structure) (h : wfTree t = true) :
    ∃ ns es E X, generate_edges t = .ok (E, some X) ∧ convert_to_dot t = .ok (ns, es) ∧
      List.Sorted (· ≤ ·) ns ∧ ns.Nodup ∧ (∀ a, a ∈ ns ↔ a ∈ extract_nodes t) ∧
      es.Nodup ∧ (∀ e, e ∈ es ↔ e ∈ E) := by
  obtain ⟨E, X, hgen, -, -, -⟩ := generate_edges_wf t h
  refine ⟨pySorted (dedupFirst [] (extract_nodes t)), dedupFirst [] E, E, X, hgen, ?_,
    pySorted_sorted _, ?_, ?_, nodup_dedupFirst E [], ?_⟩
  · unfold convert_to_dot
    rw [hgen]
  · exact (pySorted_perm _).nodup_iff.mpr (nodup_dedupFirst _ [])
  · intro a
    rw [(pySorted_perm _).mem_iff, mem_dedupFirst]
    simp
  · intro e
    rw [mem_dedupFirst]
    simp

/-- Witness for the amended C7 at the tree Parallel{B, A}: node lines come
out sorted as [A, B]. -/
theorem convert_to_dot_output_discipline_witness :
    wfTree (.par [.node "B", .node "A"]) = true ∧
    (∃ ns es E X, generate_edges (.par [.node "B", .node "A"]) = .ok (E, some X) ∧
      convert_to_dot (.par [.node "B", .node "A"]) = .ok (ns, es) ∧
      List.Sorted (· ≤ ·) ns ∧ ns.Nodup ∧
      (∀ a, a ∈ ns ↔ a ∈ extract_nodes (.par [.node "B", .node "A"])) ∧
      es.Nodup ∧ (∀ e, e ∈ es ↔ e ∈ E)) :=
  ⟨by decide, convert_to_dot_output_discipline _ (by decide)⟩

/-! ## No singleton wrappers (claim C10) -/

mutual

/-- A tree is free of singleton wrappers when every `Sequence` and
`Parallel` in it has at least two children. -/
def noSingleton : Structure → Bool
  | .node _ => true
  | .seq cs => decide (2 ≤ cs.length) && noSingletonList cs
  | .par cs => decide (2 ≤ cs.length) && noSingletonList cs

/-- Singleton-freedom of every tree of a list. -/
def noSingletonList : List Structure → Bool
  | [] => true
  | c :: cs => noSingleton c && noSingletonList cs

end

theorem noSingletonList_mem : ∀ {cs : List Structure},
    (∀ t ∈ cs, noSingleton t = true) → noSingletonList cs = true := by
  intro cs
  induction cs with
  | nil => intro _; rfl
  | cons c cs ih =>
    intro h
    rw [noSingletonList, Bool.and_eq_true]
    exact ⟨h c (List.mem_cons_self c cs), ih (fun t ht => h t (List.mem_cons_of_mem c ht))⟩

theorem noSingletonList_map_node (l : List String) :
    noSingletonList (l.map .node) = true := by
  induction l with
  | nil => rfl
  | cons a l ih => rw [List.map_cons, noSingletonList, ih, noSingleton, Bool.and_self]

theorem emitGroup_noSingleton (g : Graph) :
    ∀ (grp : List String) (t : Structure), t ∈ (emitGroup g grp).1 → noSingleton t = true := by
  intro grp t ht
  match grp with
  | [n] =>
    rw [emitGroup] at ht
    by_cases hlen : 1 < (find_direct_sequence_path g n).length
    · rw [if_pos hlen] at ht
      rcases List.mem_singleton.mp ht with rfl
      rw [noSingleton, Bool.and_eq_true]
      refine ⟨decide_eq_true ?_, noSingletonList_map_node _⟩
      rw [List.length_map]
      exact hlen
    · rw [if_neg hlen] at ht
      rcases List.mem_singleton.mp ht with rfl
      rfl
  | [] =>
    have he : emitGroup g [] = ([], []) := rfl
    rw [he] at ht
    exact absurd ht (List.not_mem_nil t)
  | a :: b :: rest =>
    have he : emitGroup g (a :: b :: rest) = ((a :: b :: rest).map .node, a :: b :: rest) := rfl
    rw [he] at ht
    obtain ⟨x, -, rfl⟩ := List.mem_map.mp ht
    rfl

theorem emitGroup_ne_nil (g : Graph) :
    ∀ grp : List String, grp ≠ [] → (emitGroup g grp).1 ≠ [] := by
  intro grp hne
  match grp with
  | [n] =>
    rw [emitGroup]
    by_cases hlen : 1 < (find_direct_sequence_path g n).length
    · rw [if_pos hlen]; exact List.cons_ne_nil _ _
    · rw [if_neg hlen]; exact List.cons_ne_nil _ _
  | [] => exact absurd rfl hne
  | a :: b :: rest =>
    have he : emitGroup g (a :: b :: rest) = ((a :: b :: rest).map .node, a :: b :: rest) := rfl
    rw [he]
    simp

theorem groupFold_noSingleton (g : Graph) (gps : List (List String × List String)) :
    ∀ (acc : List Structure × List String),
      (∀ t ∈ acc.1, noSingleton t = true) →
      ∀ t ∈ (gps.foldl
        (fun acc gp =>
          let r := emitGroup g gp.2
          (acc.1 ++ r.1, acc.2 ++ r.2)) acc).1, noSingleton t = true := by
  induction gps with
  | nil => intro acc hacc t ht; exact hacc t ht
  | cons gp gps ih =>
    intro acc hacc t ht
    refine ih _ ?_ t ht
    intro u hu
    rcases List.mem_append.mp hu with h | h
    · exact hacc u h
    · exact emitGroup_noSingleton g gp.2 u h

theorem layerResult_noSingleton (g : Graph) (current : List String) (isLast : Bool) :
    ∀ t ∈ (layerResult g current isLast).1, noSingleton t = true := by
  intro t ht
  unfold layerResult at ht
  by_cases hc : current.length = 1 ∧ isLast = false
  · rw [if_pos hc] at ht
    exact emitGroup_noSingleton g current t ht
  · rw [if_neg hc] at ht
    dsimp only at ht
    set children := (successor_groups g current).foldl
      (fun acc gp =>
        let r := emitGroup g gp.2
        (acc.1 ++ r.1, acc.2 ++ r.2)) ([], []) with hch
    have hkids : ∀ u ∈ children.1, noSingleton u = true := by
      rw [hch]
      exact groupFold_noSingleton g _ _ (by intro u hu; exact absurd hu (List.not_mem_nil u))
    by_cases hlen : 1 < children.1.length
    · rw [if_pos hlen] at ht
      rcases List.mem_singleton.mp ht with rfl
      rw [noSingleton, Bool.and_eq_true]
      exact ⟨decide_eq_true hlen, noSingletonList_mem hkids⟩
    · rw [if_neg hlen] at ht
      exact hkids t ht

theorem buildLayers_noSingleton (g : Graph) :
    ∀ (layers : List (List String)) (processed : List String),
      ∀ t ∈ buildLayers g processed layers, noSingleton t = true := by
  intro layers
  induction layers with
  | nil => intro processed t ht; exact absurd ht (List.not_mem_nil t)
  | cons layer rest ih =>
    intro processed t ht
    rw [buildLayers] at ht
    by_cases hcur : layer.filter (fun n => !(decide (n ∈ processed))) = []
    · rw [if_pos hcur] at ht
      exact ih processed t ht
    · rw [if_neg hcur] at ht
      rcases List.mem_append.mp ht with h | h
      · exact layerResult_noSingleton g _ _ t h
      · exact ih _ t h

theorem groupFold_eq (g : Graph) :
    ∀ (gps : List (List String × List String)) (acc : List Structure × List String),
      gps.foldl (fun acc gp =>
          let r := emitGroup g gp.2
          (acc.1 ++ r.1, acc.2 ++ r.2)) acc =
        (acc.1 ++ (gps.map (fun gp => (emitGroup g gp.2).1)).flatten,
         acc.2 ++ (gps.map (fun gp => (emitGroup g gp.2).2)).flatten) := by
  intro gps
  induction gps with
  | nil => intro acc; simp
  | cons gp gps ih =>
    intro acc
    rw [List.foldl_cons, ih]
    simp [List.append_assoc]

theorem insertGroup_ne_nil (key : List String) (n : String) :
    ∀ acc : List (List String × List String), insertGroup key n acc ≠ [] := by
  intro acc
  cases acc with
  | nil => exact List.cons_ne_nil _ _
  | cons gp rest =>
    rw [insertGroup]
    by_cases h : gp.1 = key
    · rw [if_pos h]; exact List.cons_ne_nil _ _
    · rw [if_neg h]; exact List.cons_ne_nil _ _

theorem successor_groups_ne_nil (g : Graph) (layer : List String) (h : layer ≠ []) :
    successor_groups g layer ≠ [] := by
  unfold successor_groups
  cases layer with
  | nil => exact absurd rfl h
  | cons n rest =>
    rw [List.foldl_cons]
    have : ∀ (l : List String) (acc : List (List String × List String)), acc ≠ [] →
        l.foldl (fun acc n => insertGroup (succKey g n) n acc) acc ≠ [] := by
      intro l
      induction l with
      | nil => intro acc hacc; exact hacc
      | cons m l ih =>
        intro acc hacc
        rw [List.foldl_cons]
        exact ih _ (insertGroup_ne_nil _ _ _)
    exact this rest _ (insertGroup_ne_nil _ _ _)

theorem insertGroup_members_ne_nil (key : List String) (n : String) :
    ∀ acc : List (List String × List String), (∀ gp ∈ acc, gp.2 ≠ []) →
      ∀ gp ∈ insertGroup key n acc, gp.2 ≠ [] := by
  intro acc
  induction acc with
  | nil =>
    intro _ gp hgp
    rcases List.mem_singleton.mp hgp with rfl
    exact List.cons_ne_nil _ _
  | cons hd rest ih =>
    intro hacc gp hgp
    rw [insertGroup] at hgp
    by_cases h : hd.1 = key
    · rw [if_pos h] at hgp
      rcases List.mem_cons.mp hgp with rfl | hmem
      · exact List.append_ne_nil_of_right_ne_nil _ (List.cons_ne_nil _ _)
      · exact hacc gp (List.mem_cons_of_mem hd hmem)
    · rw [if_neg h] at hgp
      rcases List.mem_cons.mp hgp with rfl | hmem
      · exact hacc hd (List.mem_cons_self hd rest)
      · exact ih (fun u hu => hacc u (List.mem_cons_of_mem hd hu)) gp hmem

theorem successor_groups_members_ne_nil (g : Graph) (layer : List String) :
    ∀ gp ∈ successor_groups g layer, gp.2 ≠ [] := by
  unfold successor_groups
  have : ∀ (l : List String) (acc : List (List String × List String)),
      (∀ gp ∈ acc, gp.2 ≠ []) →
      ∀ gp ∈ l.foldl (fun acc n => insertGroup (succKey g n) n acc) acc, gp.2 ≠ [] := by
    intro l
    induction l with
    | nil => intro acc hacc; exact hacc
    | cons m l ih =>
      intro acc hacc
      rw [List.foldl_cons]
      exact ih _ (insertGroup_members_ne_nil _ _ _ hacc)
  exact this layer [] (by intro gp hgp; exact absurd hgp (List.not_mem_nil gp))

theorem layerResult_ne_nil (g : Graph) (current : List String) (isLast : Bool)
    (h : current ≠ []) : (layerResult g current isLast).1 ≠ [] := by
  unfold layerResult
  by_cases hc : current.length = 1 ∧ isLast = false
  · rw [if_pos hc]
    exact emitGroup_ne_nil g current h
  · rw [if_neg hc]
    dsimp only
    rw [groupFold_eq]
    dsimp only
    simp only [List.nil_append]
    have hkids : ((successor_groups g current).map (fun gp => (emitGroup g gp.2).1)).flatten ≠ [] := by
      cases hgs : successor_groups g current with
      | nil => exact absurd hgs (successor_groups_ne_nil g current h)
      | cons gp gps =>
        rw [List.map_cons, List.flatten_cons]
        have hgp2 : gp.2 ≠ [] :=
          successor_groups_members_ne_nil g current gp (hgs ▸ List.mem_cons_self gp gps)
        exact List.append_ne_nil_of_left_ne_nil (emitGroup_ne_nil g gp.2 hgp2) _
    by_cases hlen : 1 <
        (((successor_groups g current).map (fun gp => (emitGroup g gp.2).1)).flatten).length
    · rw [if_pos hlen]
      exact List.cons_ne_nil _ _
    · rw [if_neg hlen]
      exact hkids

theorem peelLayers_layers_ne_nil (g : Graph) :
    ∀ (fuel : Nat) (remaining : List String) (L : List (List String)),
      peelLayers g fuel remaining = .ok L → ∀ layer ∈ L, layer ≠ [] := by
  intro fuel
  induction fuel with
  | zero =>
    intro remaining L h layer hl
    rw [peelLayers] at h
    by_cases hr : remaining = []
    · rw [if_pos hr] at h
      injection h with h
      subst h
      exact absurd hl (List.not_mem_nil layer)
    · rw [if_neg hr] at h
      cases h
  | succ fuel ih =>
    intro remaining L h layer hl
    rw [peelLayers] at h
    by_cases hr : remaining = []
    · rw [if_pos hr] at h
      injection h with h
      subst h
      exact absurd hl (List.not_mem_nil layer)
    · rw [if_neg hr] at h
      by_cases hlay : nextLayer g remaining = []
      · rw [if_pos hlay] at h
        cases h
      · rw [if_neg hlay] at h
        cases hrec : peelLayers g fuel
            (remaining.filter (fun n => !(decide (n ∈ nextLayer g remaining)))) with
        | error e => rw [hrec] at h; cases h
        | ok L' =>
          rw [hrec] at h
          injection h with h
          subst h
          rcases List.mem_cons.mp hl with rfl | hmem
          · exact hlay
          · exact ih _ _ hrec layer hmem

theorem buildLayers_cons_ne_nil (g : Graph) (layer : List String)
    (rest : List (List String)) (hlay : layer ≠ []) :
    buildLayers g [] (layer :: rest) ≠ [] := by
  have hfilter : layer.filter (fun n => !(decide (n ∈ ([] : List String)))) = layer := by
    rw [List.filter_eq_self]
    intro a _
    simp
  rw [buildLayers]
  dsimp only
  rw [hfilter, if_neg hlay]
  intro hc
  rcases List.append_eq_nil.mp hc with ⟨h1, -⟩
  exact layerResult_ne_nil g layer _ hlay h1

theorem combineLayerResults_noSingleton (ts : List Structure) (hne : ts ≠ [])
    (hall : ∀ u ∈ ts, noSingleton u = true) :
    noSingleton (combineLayerResults ts) = true := by
  match ts with
  | [] => exact absurd rfl hne
  | [u] => exact hall u (List.mem_singleton.mpr rfl)
  | u :: v :: us =>
    show noSingleton (.seq (u :: v :: us)) = true
    rw [noSingleton, Bool.and_eq_true]
    constructor
    · exact decide_eq_true (by simp)
    · exact noSingletonList_mem hall

/-- Any tree returned by `generate_component_structure` is free of singleton
wrappers. -/
theorem generate_component_structure_noSingleton (g : Graph) (t : Structure)
    (h : generate_component_structure g = .ok (some t)) : noSingleton t = true := by
  unfold generate_component_structure at h
  cases htop : topological_generations g with
  | error e => rw [htop] at h; cases h
  | ok layers =>
    rw [htop] at h
    have hgen : ∀ l₁ ls, layers = l₁ :: ls → l₁ ≠ [] →
        t = combineLayerResults (buildLayers g [] layers) → noSingleton t = true := by
      intro l₁ ls hlay hl₁ ht
      subst ht
      refine combineLayerResults_noSingleton _ ?_ (buildLayers_noSingleton g layers [])
      rw [hlay]
      exact buildLayers_cons_ne_nil g l₁ ls hl₁
    have hlayne : ∀ layer ∈ layers, layer ≠ [] :=
      peelLayers_layers_ne_nil g g.nodes.length g.nodes layers htop
    match layers, h with
    | [[n]], h =>
      injection h with h
      injection h with h
      subst h
      rfl
    | [], h => cases h
    | [] :: ls, h =>
      exact absurd rfl (hlayne [] (List.mem_cons_self [] ls))
    | (a :: b :: l) :: ls, h =>
      injection h with h
      injection h with h
      exact hgen _ ls rfl (List.cons_ne_nil a (b :: l)) h.symm
    | [a] :: l₂ :: ls, h =>
      injection h with h
      injection h with h
      exact hgen _ (l₂ :: ls) rfl (List.cons_ne_nil a []) h.symm

theorem collectComponents_noSingleton (g : Graph) :
    ∀ (comps : List (List String)) (ts : List Structure),
      collectComponents g comps = .ok ts → ∀ t ∈ ts, noSingleton t = true := by
  intro comps
  induction comps with
  | nil =>
    intro ts h t ht
    rw [collectComponents] at h
    injection h with h
    subst h
    exact absurd ht (List.not_mem_nil t)
  | cons c rest ih =>
    intro ts h t ht
    rw [collectComponents] at h
    cases hgen : generate_component_structure (subgraphOf g c) with
    | error e => rw [hgen] at h; cases h
    | ok o =>
      rw [hgen] at h
      cases o with
      | none => exact ih ts h t ht
      | some u =>
        cases hrec : collectComponents g rest with
        | error e => rw [hrec] at h; cases h
        | ok us =>
          rw [hrec] at h
          injection h with h
          subst h
          rcases List.mem_cons.mp ht with rfl | hmem
          · exact generate_component_structure_noSingleton _ t hgen
          · exact ih us hrec t hmem

/-- Any tree returned by the command-line composition `dot2mrMain` is free of
singleton wrappers: a single component is passed through without a root
`Parallel`, and a root `Parallel` is only created for at least two
components. -/
theorem dot2mrMain_noSingleton (g : Graph) (t : Structure)
    (h : dot2mrMain g = .ok (some t)) : noSingleton t = true := by
  unfold dot2mrMain at h
  cases hcol : collectComponents g (weakComponents g) with
  | error e => rw [hcol] at h; cases h
  | ok ts =>
    rw [hcol] at h
    have hall := collectComponents_noSingleton g (weakComponents g) ts hcol
    match ts, h with
    | [], h => cases h
    | [u], h =>
      injection h with h
      injection h with h
      subst h
      exact hall _ (List.mem_singleton.mpr rfl)
    | u :: v :: us, h =>
      injection h with h
      injection h with h
      subst h
      rw [noSingleton, Bool.and_eq_true]
      constructor
      · exact decide_eq_true (by simp)
      · exact noSingletonList_mem hall

/-- Claim C10: the structurer never returns a singleton `Sequence` or
`Parallel`: every tree out of `generate_component_structure` is free of
singleton wrappers, the one-task graph structures to a bare leaf, and the
command-line composition also returns singleton-free trees — in particular a
single weakly connected component is returned without a root `Parallel`. -/
theorem structuring_no_singleton_wrappers :
    (∀ (g : Graph) (t : Structure),
      generate_component_structure g = .ok (some t) → noSingleton t = true) ∧
    generate_component_structure singleNodeGraph = .ok (some (.node "A")) ∧
    (∀ (g : Graph) (t : Structure), dot2mrMain g = .ok (some t) → noSingleton t = true) :=
  ⟨generate_component_structure_noSingleton, by decide, dot2mrMain_noSingleton⟩

/-- Witness for C10: the diamond's tree is singleton-free. -/
theorem structuring_no_singleton_wrappers_witness :
    noSingleton (.seq [.node "A", .par [.node "B", .node "C"], .node "D"]) = true :=
  structuring_no_singleton_wrappers.1 diamondGraph _ (by decide)

/-! ## The partition property of structuring (claim C9)

The development below shows that on an acyclic well-formed graph the tree
built by `generate_component_structure` carries each task exactly once: its
leaf list is a permutation of the node list.  The crux is that the sequence
runs consumed by `find_direct_sequence_paths` live in strictly later
generations than their start node, and that runs started at distinct
unconsumed nodes are disjoint, because the run iterates a partial step
function that is injective (each run node has a unique predecessor). -/

theorem seqStep_eq_some_iff {g : Graph} {c n : String} :
    seqStep g c = some n ↔ successors g c = [n] ∧ (predecessors g n).length = 1 := by
  unfold seqStep
  cases hs : successors g c with
  | nil =>
    simp only [List.cons.injEq, false_and, iff_false, reduceCtorEq]
  | cons a rest =>
    cases rest with
    | nil =>
      dsimp only
      by_cases hp : (predecessors g a).length = 1
      · rw [if_pos hp]
        constructor
        · intro h
          injection h with h
          subst h
          exact ⟨rfl, hp⟩
        · rintro ⟨h, -⟩
          injection h with h
          rw [h]
      · rw [if_neg hp]
        constructor
        · intro h; cases h
        · rintro ⟨h, hp'⟩
          injection h with h
          subst h
          exact absurd hp' hp
    | cons b rest' =>
      dsimp only
      constructor
      · intro h; cases h
      · rintro ⟨h, -⟩
        cases h

theorem seqStep_edge {g : Graph} {c n : String} (h : seqStep g c = some n) :
    (c, n) ∈ g.edges := by
  obtain ⟨hs, -⟩ := seqStep_eq_some_iff.mp h
  exact mem_successors.mp (hs ▸ List.mem_singleton.mpr rfl)

theorem seqStep_inj {g : Graph} {a b m : String}
    (ha : seqStep g a = some m) (hb : seqStep g b = some m) : a = b := by
  obtain ⟨-, hp⟩ := seqStep_eq_some_iff.mp ha
  have hma : a ∈ predecessors g m := mem_predecessors.mpr (seqStep_edge ha)
  have hmb : b ∈ predecessors g m := mem_predecessors.mpr (seqStep_edge hb)
  obtain ⟨p, hpp⟩ := List.length_eq_one.mp hp
  rw [hpp] at hma hmb
  rw [List.mem_singleton.mp hma, List.mem_singleton.mp hmb]

/-- Iterate the sequence-run step `k` times. -/
def sIter (g : Graph) : Nat → String → Option String
  | 0, c => some c
  | k + 1, c =>
    match seqStep g c with
    | some n => sIter g k n
    | none => none

theorem sIter_succ_some {g : Graph} {c n : String} (h : seqStep g c = some n) (k : Nat) :
    sIter g (k + 1) c = sIter g k n := by
  simp [sIter, h]

theorem sIter_succ_none {g : Graph} {c : String} (h : seqStep g c = none) (k : Nat) :
    sIter g (k + 1) c = none := by
  simp [sIter, h]

theorem followSeq_succ_some {g : Graph} {c n : String} (h : seqStep g c = some n) (F : Nat) :
    followSeq g (F + 1) c = n :: followSeq g F n := by
  simp [followSeq, h]

theorem followSeq_succ_none {g : Graph} {c : String} (h : seqStep g c = none) (F : Nat) :
    followSeq g (F + 1) c = [] := by
  simp [followSeq, h]

theorem followSeq_mem_iff (g : Graph) :
    ∀ (F : Nat) (c m : String),
      m ∈ followSeq g F c ↔ ∃ k, 1 ≤ k ∧ k ≤ F ∧ sIter g k c = some m := by
  intro F
  induction F with
  | zero =>
    intro c m
    simp only [followSeq, List.not_mem_nil, false_iff]
    rintro ⟨k, hk1, hkF, -⟩
    exact absurd (le_trans hk1 hkF) (by simp)
  | succ F ih =>
    intro c m
    cases hstep : seqStep g c with
    | none =>
      rw [followSeq_succ_none hstep]
      simp only [List.not_mem_nil, false_iff]
      rintro ⟨k, hk1, hkF, hit⟩
      match k, hk1 with
      | k + 1, _ =>
        rw [sIter_succ_none hstep] at hit
        cases hit
    | some n =>
      rw [followSeq_succ_some hstep]
      simp only [List.mem_cons]
      constructor
      · rintro (rfl | hmem)
        · exact ⟨1, le_refl 1, by simp, by rw [sIter_succ_some hstep, sIter]⟩
        · obtain ⟨k, hk1, hkF, hit⟩ := (ih n m).mp hmem
          refine ⟨k + 1, by simp, by omega, ?_⟩
          rw [sIter_succ_some hstep]
          exact hit
      · rintro ⟨k, hk1, hkF, hit⟩
        match k, hk1 with
        | 1, _ =>
          rw [sIter_succ_some hstep, sIter] at hit
          injection hit with hit
          exact Or.inl hit.symm
        | k + 2, _ =>
          rw [sIter_succ_some hstep] at hit
          exact Or.inr ((ih n m).mpr ⟨k + 1, by simp, by omega, hit⟩)

theorem sIter_inj (g : Graph) :
    ∀ (k : Nat) (a b m : String), sIter g k a = some m → sIter g k b = some m → a = b := by
  intro k
  induction k with
  | zero =>
    intro a b m ha hb
    rw [sIter] at ha hb
    injection ha with ha
    injection hb with hb
    rw [ha, hb]
  | succ k ih =>
    intro a b m ha hb
    cases hsa : seqStep g a with
    | none => rw [sIter_succ_none hsa] at ha; cases ha
    | some a1 =>
      cases hsb : seqStep g b with
      | none => rw [sIter_succ_none hsb] at hb; cases hb
      | some b1 =>
        rw [sIter_succ_some hsa] at ha
        rw [sIter_succ_some hsb] at hb
        have hab1 : a1 = b1 := ih a1 b1 m ha hb
        subst hab1
        exact seqStep_inj hsa hsb

theorem sIter_add (g : Graph) :
    ∀ (p q : Nat) (a m : String),
      sIter g (p + q) a = some m ↔ ∃ x, sIter g p a = some x ∧ sIter g q x = some m := by
  intro p
  induction p with
  | zero =>
    intro q a m
    rw [Nat.zero_add]
    constructor
    · intro h; exact ⟨a, rfl, h⟩
    · rintro ⟨x, hx, hq⟩
      rw [sIter] at hx
      injection hx with hx
      rw [← hx] at hq
      exact hq
  | succ p ih =>
    intro q a m
    have harith : p + 1 + q = (p + q) + 1 := by omega
    rw [harith]
    cases hs : seqStep g a with
    | none =>
      rw [sIter_succ_none hs]
      constructor
      · intro h; cases h
      · rintro ⟨x, hx, -⟩
        rw [sIter_succ_none hs] at hx
        cases hx
    | some n =>
      rw [sIter_succ_some hs, ih q n m]
      constructor
      · rintro ⟨x, hx, hq⟩
        refine ⟨x, ?_, hq⟩
        rw [sIter_succ_some hs]
        exact hx
      · rintro ⟨x, hx, hq⟩
        refine ⟨x, ?_, hq⟩
        rw [sIter_succ_some hs] at hx
        exact hx

theorem followSeq_overlap (g : Graph) {F : Nat} {n n' m : String}
    (hn : m ∈ followSeq g F n) (hn' : m ∈ followSeq g F n') :
    n = n' ∨ n ∈ followSeq g F n' ∨ n' ∈ followSeq g F n := by
  obtain ⟨k, hk1, hkF, hkit⟩ := (followSeq_mem_iff g F n m).mp hn
  obtain ⟨j, hj1, hjF, hjit⟩ := (followSeq_mem_iff g F n' m).mp hn'
  rcases le_total k j with hle | hle
  · have hdecomp : j - k + k = j := by omega
    rw [← hdecomp] at hjit
    obtain ⟨x, hx1, hx2⟩ := (sIter_add g (j - k) k n' m).mp hjit
    have hxn : x = n := sIter_inj g k x n m hx2 hkit
    rw [hxn] at hx1
    by_cases hjk : j = k
    · subst hjk
      simp only [Nat.sub_self] at hx1
      rw [sIter] at hx1
      injection hx1 with hx1
      exact Or.inl hx1.symm
    · right; left
      exact (followSeq_mem_iff g F n' n).mpr ⟨j - k, by omega, by omega, hx1⟩
  · have hdecomp : k - j + j = k := by omega
    rw [← hdecomp] at hkit
    obtain ⟨x, hx1, hx2⟩ := (sIter_add g (k - j) j n m).mp hkit
    have hxn : x = n' := sIter_inj g j x n' m hx2 hjit
    rw [hxn] at hx1
    by_cases hkj : k = j
    · subst hkj
      simp only [Nat.sub_self] at hx1
      rw [sIter] at hx1
      injection hx1 with hx1
      exact Or.inl hx1
    · right; right
      exact (followSeq_mem_iff g F n n').mpr ⟨k - j, by omega, by omega, hx1⟩

theorem peelLayers_flatten_perm (g : Graph) :
    ∀ (fuel : Nat) (remaining : List String) (L : List (List String)),
      peelLayers g fuel remaining = .ok L → L.flatten.Perm remaining := by
  intro fuel
  induction fuel with
  | zero =>
    intro remaining L h
    rw [peelLayers] at h
    by_cases hr : remaining = []
    · rw [if_pos hr] at h
      injection h with h
      subst h
      rw [hr]
      exact .refl _
    · rw [if_neg hr] at h
      cases h
  | succ fuel ih =>
    intro remaining L h
    rw [peelLayers] at h
    by_cases hr : remaining = []
    · rw [if_pos hr] at h
      injection h with h
      subst h
      rw [hr]
      exact .refl _
    · rw [if_neg hr] at h
      by_cases hlay : nextLayer g remaining = []
      · rw [if_pos hlay] at h
        cases h
      · rw [if_neg hlay] at h
        cases hrec : peelLayers g fuel
            (remaining.filter (fun n => !(decide (n ∈ nextLayer g remaining)))) with
        | error e => rw [hrec] at h; cases h
        | ok L' =>
          rw [hrec] at h
          injection h with h
          subst h
          rw [List.flatten_cons]
          have hperm := ih _ _ hrec
          have hfilters :
              remaining.filter (fun n => !(decide (n ∈ nextLayer g remaining))) =
                remaining.filter (fun n =>
                  !(predecessors g n).all (fun p => !(decide (p ∈ remaining)))) := by
            apply List.filter_congr
            intro a ha
            congr 1
            unfold nextLayer
            by_cases hpa : (predecessors g a).all (fun p => !(decide (p ∈ remaining))) = true
            · rw [hpa]
              exact decide_eq_true (List.mem_filter.mpr ⟨ha, hpa⟩)
            · rw [Bool.not_eq_true] at hpa
              rw [hpa]
              apply decide_eq_false
              intro hc
              rw [(List.mem_filter.mp hc).2] at hpa
              cases hpa
          rw [hfilters] at hperm
          have := (List.Perm.append_left (nextLayer g remaining) hperm).trans
            (List.filter_append_perm
              (fun n => (predecessors g n).all (fun p => !(decide (p ∈ remaining)))) remaining)
          exact this

theorem peelLayers_pred_in_take (g : Graph) :
    ∀ (fuel : Nat) (remaining : List String) (L : List (List String)),
      peelLayers g fuel remaining = .ok L →
      ∀ (j : Nat) (hj : j < L.length), ∀ b ∈ L.get ⟨j, hj⟩, ∀ p, (p, b) ∈ g.edges →
        p ∈ remaining → p ∈ (L.take j).flatten := by
  intro fuel
  induction fuel with
  | zero =>
    intro remaining L h j hj
    rw [peelLayers] at h
    by_cases hr : remaining = []
    · rw [if_pos hr] at h
      injection h with h
      subst h
      exact absurd hj (by simp)
    · rw [if_neg hr] at h
      cases h
  | succ fuel ih =>
    intro remaining L h j hj b hb p hedge hp
    rw [peelLayers] at h
    by_cases hr : remaining = []
    · rw [if_pos hr] at h
      injection h with h
      subst h
      exact absurd hj (by simp)
    · rw [if_neg hr] at h
      by_cases hlay : nextLayer g remaining = []
      · rw [if_pos hlay] at h
        cases h
      · rw [if_neg hlay] at h
        cases hrec : peelLayers g fuel
            (remaining.filter (fun n => !(decide (n ∈ nextLayer g remaining)))) with
        | error e => rw [hrec] at h; cases h
        | ok L' =>
          rw [hrec] at h
          injection h with h
          subst h
          match j, hj with
          | 0, hj =>
            exfalso
            have hbmem : b ∈ nextLayer g remaining := hb
            unfold nextLayer at hbmem
            rw [List.mem_filter, List.all_eq_true] at hbmem
            have := hbmem.2 p (mem_predecessors.mpr hedge)
            rw [Bool.not_eq_true', decide_eq_false_iff_not] at this
            exact this hp
          | j + 1, hj =>
            have hj' : j < L'.length := by
              simpa using hj
            have hbget : b ∈ L'.get ⟨j, hj'⟩ := hb
            by_cases hpl : p ∈ nextLayer g remaining
            · rw [List.take_succ_cons, List.flatten_cons]
              exact List.mem_append.mpr (Or.inl hpl)
            · have hp' : p ∈ remaining.filter (fun n => !(decide (n ∈ nextLayer g remaining))) := by
                rw [List.mem_filter]
                exact ⟨hp, by rw [Bool.not_eq_true', decide_eq_false_iff_not]; exact hpl⟩
              have := ih _ _ hrec j hj' b hbget p hedge hp'
              rw [List.take_succ_cons, List.flatten_cons]
              exact List.mem_append.mpr (Or.inr this)

theorem flatten_nodup_layer_unique {L : List (List String)} (hN : L.flatten.Nodup) :
    ∀ (i j : Nat) (hi : i < L.length) (hj : j < L.length) (n : String),
      n ∈ L.get ⟨i, hi⟩ → n ∈ L.get ⟨j, hj⟩ → i = j := by
  induction L with
  | nil => intro i j hi; exact absurd hi (by simp)
  | cons A rest ih =>
    intro i j hi hj n hni hnj
    rw [List.flatten_cons, List.nodup_append] at hN
    obtain ⟨hA, hrest, hdisj⟩ := hN
    match i, j, hi, hj with
    | 0, 0, _, _ => rfl
    | 0, j + 1, _, hj =>
      exfalso
      have hj' : j < rest.length := by simpa using hj
      have : n ∈ rest.flatten :=
        List.mem_flatten.mpr ⟨rest.get ⟨j, hj'⟩, List.get_mem rest _ _, hnj⟩
      exact hdisj hni this
    | i + 1, 0, hi, _ =>
      exfalso
      have hi' : i < rest.length := by simpa using hi
      have : n ∈ rest.flatten :=
        List.mem_flatten.mpr ⟨rest.get ⟨i, hi'⟩, List.get_mem rest _ _, hni⟩
      exact hdisj hnj this
    | i + 1, j + 1, hi, hj =>
      have hi' : i < rest.length := by simpa using hi
      have hj' : j < rest.length := by simpa using hj
      have := ih hrest i j hi' hj' n hni hnj
      omega

theorem mem_take_flatten {L : List (List String)} {j : Nat} {a : String}
    (h : a ∈ (L.take j).flatten) :
    ∃ (i : Nat) (hi : i < L.length), i < j ∧ a ∈ L.get ⟨i, hi⟩ := by
  induction L generalizing j with
  | nil => simp at h
  | cons A rest ih =>
    match j with
    | 0 => simp at h
    | j + 1 =>
      rw [List.take_succ_cons, List.flatten_cons] at h
      rcases List.mem_append.mp h with hA | hrest
      · exact ⟨0, by simp, by omega, hA⟩
      · obtain ⟨i, hi, hij, hmem⟩ := ih hrest
        exact ⟨i + 1, by simpa using hi, by omega, hmem⟩

theorem mem_drop_flatten_of_get {L : List (List String)} {j d : Nat}
    (hd : d ≤ j) (hj : j < L.length) {m : String} (hm : m ∈ L.get ⟨j, hj⟩) :
    m ∈ (L.drop d).flatten := by
  induction L generalizing j d with
  | nil => exact absurd hj (by simp)
  | cons A rest ih =>
    match d with
    | 0 =>
      rw [List.drop_zero]
      match j, hj with
      | 0, _ => exact List.mem_flatten.mpr ⟨A, List.mem_cons_self A rest, hm⟩
      | j + 1, hj =>
        have hj' : j < rest.length := by simpa using hj
        rw [List.flatten_cons]
        refine List.mem_append.mpr (Or.inr ?_)
        exact List.mem_flatten.mpr ⟨rest.get ⟨j, hj'⟩, List.get_mem rest _ _, hm⟩
    | d + 1 =>
      match j, hj with
      | 0, _ => exact absurd hd (by omega)
      | j + 1, hj =>
        have hj' : j < rest.length := by simpa using hj
        rw [List.drop_succ_cons]
        exact ih (by omega) hj' hm

theorem mem_flatten_to_get {L : List (List String)} {a : String} (h : a ∈ L.flatten) :
    ∃ (j : Nat) (hj : j < L.length), a ∈ L.get ⟨j, hj⟩ := by
  obtain ⟨l, hl, hal⟩ := List.mem_flatten.mp h
  obtain ⟨⟨j, hj⟩, hget⟩ := List.mem_iff_get.mp hl
  exact ⟨j, hj, hget ▸ hal⟩

theorem edge_layer_lt (g : Graph) {L : List (List String)} (hwf : g.WF)
    (htop : topological_generations g = .ok L) {a b : String} (hedge : (a, b) ∈ g.edges)
    {i j : Nat} (hi : i < L.length) (hj : j < L.length)
    (ha : a ∈ L.get ⟨i, hi⟩) (hb : b ∈ L.get ⟨j, hj⟩) : i < j := by
  unfold topological_generations at htop
  have hnodup : L.flatten.Nodup :=
    (peelLayers_flatten_perm g _ _ _ htop).nodup_iff.mpr hwf.1
  have hp : a ∈ g.nodes := (hwf.2.2 _ hedge).1
  have htake := peelLayers_pred_in_take g _ _ _ htop j hj b hb a hedge hp
  obtain ⟨i', hi', hij, hmem⟩ := mem_take_flatten htake
  have := flatten_nodup_layer_unique hnodup i' i hi' hi a hmem ha
  omega

theorem seqStep_layer (g : Graph) {L : List (List String)} (hwf : g.WF)
    (htop : topological_generations g = .ok L) {n n1 : String} (hs : seqStep g n = some n1)
    {i : Nat} (hi : i < L.length) (hn : n ∈ L.get ⟨i, hi⟩) :
    ∃ (j : Nat) (hj : j < L.length), i < j ∧ n1 ∈ L.get ⟨j, hj⟩ := by
  have hedge := seqStep_edge hs
  have hn1 : n1 ∈ g.nodes := (hwf.2.2 _ hedge).2
  have hflat : L.flatten.Perm g.nodes := by
    unfold topological_generations at htop
    exact peelLayers_flatten_perm g _ _ _ htop
  have : n1 ∈ L.flatten := hflat.mem_iff.mpr hn1
  obtain ⟨j, hj, hmem⟩ := mem_flatten_to_get this
  exact ⟨j, hj, edge_layer_lt g hwf htop hedge hi hj hn hmem, hmem⟩

theorem followSeq_levels (g : Graph) {L : List (List String)} (hwf : g.WF)
    (htop : topological_generations g = .ok L) :
    ∀ (F : Nat) (n : String) (i : Nat) (hi : i < L.length), n ∈ L.get ⟨i, hi⟩ →
      ∀ m ∈ followSeq g F n, ∃ (j : Nat) (hj : j < L.length), i < j ∧ m ∈ L.get ⟨j, hj⟩ := by
  intro F
  induction F with
  | zero =>
    intro n i hi hn m hm
    rw [followSeq] at hm
    exact absurd hm (List.not_mem_nil m)
  | succ F ih =>
    intro n i hi hn m hm
    cases hstep : seqStep g n with
    | none =>
      rw [followSeq_succ_none hstep] at hm
      exact absurd hm (List.not_mem_nil m)
    | some n1 =>
      rw [followSeq_succ_some hstep] at hm
      obtain ⟨j, hj, hij, hn1⟩ := seqStep_layer g hwf htop hstep hi hn
      rcases List.mem_cons.mp hm with rfl | hmem
      · exact ⟨j, hj, hij, hn1⟩
      · obtain ⟨j', hj', hjj', hmem'⟩ := ih n1 j hj hn1 m hmem
        exact ⟨j', hj', by omega, hmem'⟩

theorem followSeq_nodup (g : Graph) {L : List (List String)} (hwf : g.WF)
    (htop : topological_generations g = .ok L) :
    ∀ (F : Nat) (n : String) (i : Nat) (hi : i < L.length), n ∈ L.get ⟨i, hi⟩ →
      (followSeq g F n).Nodup := by
  have hnodup : L.flatten.Nodup := by
    unfold topological_generations at htop
    exact (peelLayers_flatten_perm g _ _ _ htop).nodup_iff.mpr hwf.1
  intro F
  induction F with
  | zero => intro n i hi hn; rw [followSeq]; exact List.nodup_nil
  | succ F ih =>
    intro n i hi hn
    cases hstep : seqStep g n with
    | none => rw [followSeq_succ_none hstep]; exact List.nodup_nil
    | some n1 =>
      rw [followSeq_succ_some hstep]
      obtain ⟨j, hj, hij, hn1⟩ := seqStep_layer g hwf htop hstep hi hn
      refine List.nodup_cons.mpr ⟨?_, ih n1 j hj hn1⟩
      intro hc
      obtain ⟨j', hj', hjj', hmem'⟩ := followSeq_levels g hwf htop F n1 j hj hn1 n1 hc
      have := flatten_nodup_layer_unique hnodup j' j hj' hj n1 hmem' hn1
      omega

theorem followSeq_same_layer_disjoint (g : Graph) {L : List (List String)} (hwf : g.WF)
    (htop : topological_generations g = .ok L) {F : Nat} {k : Nat} (hk : k < L.length)
    {n n' : String} (hn : n ∈ L.get ⟨k, hk⟩) (hn' : n' ∈ L.get ⟨k, hk⟩) (hne : n ≠ n') :
    ∀ m, m ∈ followSeq g F n → m ∈ followSeq g F n' → False := by
  have hnodup : L.flatten.Nodup := by
    unfold topological_generations at htop
    exact (peelLayers_flatten_perm g _ _ _ htop).nodup_iff.mpr hwf.1
  intro m hm hm'
  rcases followSeq_overlap g hm hm' with heq | hmem | hmem
  · exact hne heq
  · obtain ⟨j, hj, hkj, hmemj⟩ := followSeq_levels g hwf htop F n' k hk hn' n hmem
    have := flatten_nodup_layer_unique hnodup j k hj hk n hmemj hn
    omega
  · obtain ⟨j, hj, hkj, hmemj⟩ := followSeq_levels g hwf htop F n k hk hn n' hmem
    have := flatten_nodup_layer_unique hnodup j k hj hk n' hmemj hn'
    omega

/-- Nodes consumed beyond the group members themselves: the tail of the
sequence run of a singleton group. -/
def groupTails (g : Graph) : List String → List String
  | [n] => followSeq g g.nodes.length n
  | _ => []

/-- All run tails consumed while emitting one generation. -/
def layerTails (g : Graph) (current : List String) : List String :=
  ((successor_groups g current).map (fun gp => groupTails g gp.2)).flatten

theorem emitGroup_consumed_eq (g : Graph) :
    ∀ grp : List String, (emitGroup g grp).2 = grp ++ groupTails g grp := by
  intro grp
  match grp with
  | [n] =>
    rw [emitGroup]
    by_cases hlen : 1 < (find_direct_sequence_path g n).length
    · rw [if_pos hlen]
      rfl
    · rw [if_neg hlen]
      have hfs : followSeq g g.nodes.length n = [] := by
        unfold find_direct_sequence_path at hlen
        rw [List.length_cons] at hlen
        have := Nat.not_lt.mp hlen
        exact List.eq_nil_of_length_eq_zero (by omega)
      show [n] = [n] ++ groupTails g [n]
      rw [show groupTails g [n] = followSeq g g.nodes.length n from rfl, hfs]
      rfl
  | [] => rfl
  | a :: b :: rest =>
    show a :: b :: rest = (a :: b :: rest) ++ groupTails g (a :: b :: rest)
    rw [show groupTails g (a :: b :: rest) = [] from rfl, List.append_nil]

theorem extract_nodes_list_append (xs ys : List Structure) :
    extract_nodes_list (xs ++ ys) = extract_nodes_list xs ++ extract_nodes_list ys := by
  induction xs with
  | nil => rfl
  | cons c cs ih => simp [extract_nodes_list, ih]

theorem extract_nodes_list_map_node (l : List String) :
    extract_nodes_list (l.map .node) = l := by
  induction l with
  | nil => rfl
  | cons a l ih => simp [extract_nodes_list, extract_nodes, ih]

theorem emitGroup_leaves_eq (g : Graph) :
    ∀ grp : List String, extract_nodes_list (emitGroup g grp).1 = (emitGroup g grp).2 := by
  intro grp
  match grp with
  | [n] =>
    rw [emitGroup]
    by_cases hlen : 1 < (find_direct_sequence_path g n).length
    · rw [if_pos hlen]
      show extract_nodes_list [.seq ((find_direct_sequence_path g n).map .node)] = _
      rw [extract_nodes_list, extract_nodes_list, extract_nodes, List.append_nil]
      exact extract_nodes_list_map_node _
    · rw [if_neg hlen]
      rfl
  | [] => rfl
  | a :: b :: rest =>
    show extract_nodes_list ((a :: b :: rest).map .node) = a :: b :: rest
    exact extract_nodes_list_map_node _

theorem insertGroup_flatten_perm (key : List String) (n : String) :
    ∀ acc : List (List String × List String),
      (((insertGroup key n acc).map (·.2)).flatten).Perm
        (((acc.map (·.2)).flatten) ++ [n]) := by
  intro acc
  induction acc with
  | nil => simp [insertGroup]
  | cons gp rest ih =>
    rw [insertGroup]
    by_cases h : gp.1 = key
    · rw [if_pos h]
      simp only [List.map_cons, List.flatten_cons, List.append_assoc]
      refine List.Perm.append_left gp.2 ?_
      exact List.perm_append_comm
    · rw [if_neg h]
      simp only [List.map_cons, List.flatten_cons, List.append_assoc]
      exact List.Perm.append_left gp.2 ih

theorem successor_groups_flatten_perm (g : Graph) (layer : List String) :
    (((successor_groups g layer).map (·.2)).flatten).Perm layer := by
  unfold successor_groups
  have : ∀ (l : List String) (acc : List (List String × List String)),
      (((l.foldl (fun acc n => insertGroup (succKey g n) n acc) acc).map (·.2)).flatten).Perm
        (((acc.map (·.2)).flatten) ++ l) := by
    intro l
    induction l with
    | nil => intro acc; simp
    | cons m l ih =>
      intro acc
      rw [List.foldl_cons]
      refine (ih _).trans ?_
      have := (insertGroup_flatten_perm (succKey g m) m acc).append_right l
      refine this.trans ?_
      rw [List.append_assoc]
      exact List.Perm.append_left _ (by simp)
  simpa using this layer []

theorem flatten_map_append_perm {α β : Type} (l : List α) (f h : α → List β) :
    ((l.map (fun x => f x ++ h x)).flatten).Perm
      ((l.map f).flatten ++ (l.map h).flatten) := by
  induction l with
  | nil => simp
  | cons a l ih =>
    simp only [List.map_cons, List.flatten_cons]
    refine ((List.Perm.append_left (f a ++ h a) ih).trans ?_)
    rw [List.append_assoc, List.append_assoc]
    refine List.Perm.append_left (f a) ?_
    rw [← List.append_assoc, ← List.append_assoc]
    exact (List.perm_append_comm.append_right _).trans (by rw [List.append_assoc])

theorem layerResult_consumed_perm (g : Graph) (current : List String) (isLast : Bool) :
    ((layerResult g current isLast).2).Perm (current ++ layerTails g current) := by
  unfold layerResult
  by_cases hc : current.length = 1 ∧ isLast = false
  · rw [if_pos hc]
    obtain ⟨n, rfl⟩ := List.length_eq_one.mp hc.1
    rw [emitGroup_consumed_eq]
    refine List.Perm.append_left [n] ?_
    show (groupTails g [n]).Perm (layerTails g [n])
    unfold layerTails successor_groups
    simp [insertGroup, groupTails]
  · rw [if_neg hc]
    have hfold := groupFold_eq g (successor_groups g current) ([], [])
    have hcons : ((successor_groups g current).foldl
        (fun acc gp =>
          let r := emitGroup g gp.2
          (acc.1 ++ r.1, acc.2 ++ r.2)) ([], [])).2 =
        ((successor_groups g current).map (fun gp => (emitGroup g gp.2).2)).flatten := by
      rw [hfold]
      rfl
    have hmap : ((successor_groups g current).map (fun gp => (emitGroup g gp.2).2)) =
        ((successor_groups g current).map (fun gp => gp.2 ++ groupTails g gp.2)) := by
      apply List.map_congr_left
      intro gp _
      exact emitGroup_consumed_eq g gp.2
    have hperm1 := flatten_map_append_perm (successor_groups g current) (·.2)
      (fun gp => groupTails g gp.2)
    have hperm2 := (successor_groups_flatten_perm g current).append_right
      (layerTails g current)
    show (((successor_groups g current).foldl
        (fun acc gp =>
          let r := emitGroup g gp.2
          (acc.1 ++ r.1, acc.2 ++ r.2)) ([], [])).2).Perm (current ++ layerTails g current)
    rw [hcons, hmap]
    exact (hperm1.trans hperm2)

theorem extract_nodes_list_flatten (Ls : List (List Structure)) :
    extract_nodes_list Ls.flatten = (Ls.map extract_nodes_list).flatten := by
  induction Ls with
  | nil => rfl
  | cons A rest ih =>
    rw [List.flatten_cons, extract_nodes_list_append, ih, List.map_cons, List.flatten_cons]

theorem layerResult_leaves_eq (g : Graph) (current : List String) (isLast : Bool) :
    extract_nodes_list (layerResult g current isLast).1 = (layerResult g current isLast).2 := by
  unfold layerResult
  by_cases hc : current.length = 1 ∧ isLast = false
  · rw [if_pos hc]
    exact emitGroup_leaves_eq g current
  · rw [if_neg hc]
    dsimp only
    rw [groupFold_eq]
    dsimp only
    simp only [List.nil_append]
    have hFC : extract_nodes_list
        (((successor_groups g current).map (fun gp => (emitGroup g gp.2).1)).flatten) =
        ((successor_groups g current).map (fun gp => (emitGroup g gp.2).2)).flatten := by
      rw [extract_nodes_list_flatten, List.map_map]
      congr 1
      apply List.map_congr_left
      intro gp _
      exact emitGroup_leaves_eq g gp.2
    by_cases hlen : 1 <
        (((successor_groups g current).map (fun gp => (emitGroup g gp.2).1)).flatten).length
    · rw [if_pos hlen]
      show extract_nodes (.par _) ++ extract_nodes_list [] = _
      rw [extract_nodes, extract_nodes_list, List.append_nil]
      exact hFC
    · rw [if_neg hlen]
      exact hFC

theorem mem_layerTails (g : Graph) {current : List String} {m : String}
    (hm : m ∈ layerTails g current) :
    ∃ x, x ∈ current ∧ m ∈ followSeq g g.nodes.length x ∧
      ∀ y ∈ followSeq g g.nodes.length x, y ∈ layerTails g current := by
  unfold layerTails at hm ⊢
  obtain ⟨piece, hpiece, hmp⟩ := List.mem_flatten.mp hm
  obtain ⟨gp, hgp, hpe⟩ := List.mem_map.mp hpiece
  match hshape : gp.2, hpe with
  | [x], hpe =>
    have htail : piece = followSeq g g.nodes.length x := by
      rw [← hpe]
      rfl
    refine ⟨x, ?_, htail ▸ hmp, ?_⟩
    · have hx : x ∈ gp.2 := by rw [hshape]; exact List.mem_singleton.mpr rfl
      have : x ∈ ((successor_groups g current).map (·.2)).flatten :=
        List.mem_flatten.mpr ⟨gp.2, List.mem_map.mpr ⟨gp, hgp, rfl⟩, hx⟩
      exact (successor_groups_flatten_perm g current).mem_iff.mp this
    · intro y hy
      refine List.mem_flatten.mpr ⟨piece, hpiece, ?_⟩
      rw [htail]
      exact hy
  | [], hpe =>
    exfalso
    rw [← hpe] at hmp
    rw [show groupTails g ([] : List String) = [] from rfl] at hmp
    exact absurd hmp (List.not_mem_nil m)
  | a :: b :: rest, hpe =>
    exfalso
    rw [← hpe] at hmp
    rw [show groupTails g (a :: b :: rest) = [] from rfl] at hmp
    exact absurd hmp (List.not_mem_nil m)

theorem successor_groups_member_sub (g : Graph) {current : List String}
    {gp : List String × List String} (hgp : gp ∈ successor_groups g current) :
    ∀ x ∈ gp.2, x ∈ current := by
  intro x hx
  have : x ∈ ((successor_groups g current).map (·.2)).flatten :=
    List.mem_flatten.mpr ⟨gp.2, List.mem_map.mpr ⟨gp, hgp, rfl⟩, hx⟩
  exact (successor_groups_flatten_perm g current).mem_iff.mp this

theorem layerTails_nodup (g : Graph) (hwf : g.WF) {L : List (List String)}
    (htop : topological_generations g = .ok L) {k : Nat} (hk : k < L.length)
    {current : List String} (hcur : current.Nodup)
    (hsub : ∀ x ∈ current, x ∈ L.get ⟨k, hk⟩) :
    (layerTails g current).Nodup := by
  unfold layerTails
  rw [List.nodup_flatten]
  constructor
  · intro piece hpiece
    obtain ⟨gp, hgp, hpe⟩ := List.mem_map.mp hpiece
    match hshape : gp.2, hpe with
    | [x], hpe =>
      have hx : x ∈ current := by
        refine successor_groups_member_sub g hgp x ?_
        rw [hshape]
        exact List.mem_singleton.mpr rfl
      rw [← hpe, show groupTails g [x] = followSeq g g.nodes.length x from rfl]
      exact followSeq_nodup g hwf htop g.nodes.length x k hk (hsub x hx)
    | [], hpe =>
      rw [← hpe, show groupTails g ([] : List String) = [] from rfl]
      exact List.nodup_nil
    | a :: b :: rest, hpe =>
      rw [← hpe, show groupTails g (a :: b :: rest) = [] from rfl]
      exact List.nodup_nil
  · rw [List.pairwise_map]
    have hmembers : (((successor_groups g current).map (·.2)).flatten).Nodup :=
      (successor_groups_flatten_perm g current).nodup_iff.mpr hcur
    have hpw := (List.nodup_flatten.mp hmembers).2
    rw [List.pairwise_map] at hpw
    refine List.Pairwise.imp_of_mem ?_ hpw
    intro gp gp' hgp hgp' hdisj
    match hs : gp.2, hs' : gp'.2 with
    | [x], [x'] =>
      show List.Disjoint (groupTails g [x]) (groupTails g [x'])
      rw [show groupTails g [x] = followSeq g g.nodes.length x from rfl,
        show groupTails g [x'] = followSeq g g.nodes.length x' from rfl]
      have hx : x ∈ current := by
        refine successor_groups_member_sub g hgp x ?_
        rw [hs]; exact List.mem_singleton.mpr rfl
      have hx' : x' ∈ current := by
        refine successor_groups_member_sub g hgp' x' ?_
        rw [hs']; exact List.mem_singleton.mpr rfl
      have hne : x ≠ x' := by
        intro hc
        subst hc
        refine hdisj (a := x) ?_ ?_
        · rw [hs]; exact List.mem_singleton.mpr rfl
        · rw [hs']; exact List.mem_singleton.mpr rfl
      intro m hm hm'
      exact followSeq_same_layer_disjoint g hwf htop hk (hsub x hx) (hsub x' hx') hne m hm hm'
    | [], _ =>
      show List.Disjoint (groupTails g []) _
      rw [show groupTails g ([] : List String) = [] from rfl]
      intro m hm
      exact absurd hm (List.not_mem_nil m)
    | a :: b :: rest, _ =>
      show List.Disjoint (groupTails g (a :: b :: rest)) _
      rw [show groupTails g (a :: b :: rest) = [] from rfl]
      intro m hm
      exact absurd hm (List.not_mem_nil m)
    | [x], [] =>
      show List.Disjoint _ (groupTails g ([] : List String))
      rw [show groupTails g ([] : List String) = [] from rfl]
      intro m hm hc
      exact absurd hc (List.not_mem_nil m)
    | [x], a :: b :: rest =>
      show List.Disjoint _ (groupTails g (a :: b :: rest))
      rw [show groupTails g (a :: b :: rest) = [] from rfl]
      intro m hm hc
      exact absurd hc (List.not_mem_nil m)

theorem mem_filter_notP {l P : List String} {a : String} :
    a ∈ l.filter (fun n => !(decide (n ∈ P))) ↔ a ∈ l ∧ a ∉ P := by
  rw [List.mem_filter]
  simp

theorem mem_flatten_of_mem_drop {L : List (List String)} {d : Nat} {m : String}
    (h : m ∈ (L.drop d).flatten) : m ∈ L.flatten := by
  obtain ⟨l, hl, hml⟩ := List.mem_flatten.mp h
  exact List.mem_flatten.mpr ⟨l, List.mem_of_mem_drop hl, hml⟩

theorem flatten_drop_nodup {L : List (List String)} (h : L.flatten.Nodup) (d : Nat) :
    ((L.drop d).flatten).Nodup := by
  have hsplit : L.flatten = (L.take d).flatten ++ (L.drop d).flatten := by
    rw [← List.flatten_append, List.take_append_drop]
  rw [hsplit] at h
  exact (List.nodup_append.mp h).2.1

theorem buildLayers_leaves_perm (g : Graph) (hwf : g.WF) {L : List (List String)}
    (htop : topological_generations g = .ok L) :
    ∀ (S : List (List String)), (∃ k, S = L.drop k) →
    ∀ (P : List String),
      (∀ m ∈ L.flatten, m ∉ S.flatten → m ∈ P) →
      (∀ m ∈ P, m ∈ L.flatten) →
      (∀ m ∈ P, m ∈ S.flatten → ∃ x, x ∈ L.flatten ∧ x ∉ S.flatten ∧
        m ∈ followSeq g g.nodes.length x ∧ ∀ y ∈ followSeq g g.nodes.length x, y ∈ P) →
      (extract_nodes_list (buildLayers g P S)).Perm
        (S.flatten.filter (fun n => !(decide (n ∈ P)))) := by
  have hLN : L.flatten.Nodup := by
    have h := htop
    unfold topological_generations at h
    exact (peelLayers_flatten_perm g _ _ _ h).nodup_iff.mpr hwf.1
  intro S
  induction S with
  | nil =>
    intro _ P _ _ _
    rw [buildLayers]
    exact .refl _
  | cons layer rest ih =>
    rintro ⟨k, hSk⟩ P hyp1 hyp2 hyp3
    have hkd : L.drop k = layer :: rest := hSk.symm
    have hkl : k < L.length := by
      by_contra hc
      rw [List.drop_eq_nil_of_le (Nat.le_of_not_lt hc)] at hkd
      cases hkd
    have hdropc : L.drop k = L.get ⟨k, hkl⟩ :: L.drop (k + 1) :=
      List.drop_eq_getElem_cons hkl
    rw [hkd] at hdropc
    have hlayer_get : layer = L.get ⟨k, hkl⟩ := (List.cons.inj hdropc).1
    have hrest : rest = L.drop (k + 1) := (List.cons.inj hdropc).2
    have hSN : ((layer :: rest).flatten).Nodup := by
      rw [← hkd]
      exact flatten_drop_nodup hLN k
    rw [List.flatten_cons, List.nodup_append] at hSN
    obtain ⟨hlayerN, hFrestN, hdisjLF⟩ := hSN
    have hlayermem : ∀ m ∈ layer, m ∈ L.flatten := by
      intro m hm
      refine List.mem_flatten.mpr ⟨layer, ?_, hm⟩
      rw [hlayer_get]
      exact List.get_mem L _ _
    have hrestmem : ∀ m ∈ rest.flatten, m ∈ L.flatten := by
      intro m hm
      rw [hrest] at hm
      exact mem_flatten_of_mem_drop hm
    by_cases hcur0 : layer.filter (fun n => !(decide (n ∈ P))) = []
    · rw [buildLayers]
      dsimp only
      rw [if_pos hcur0]
      have hlayerP : ∀ m ∈ layer, m ∈ P := by
        intro m hm
        have := List.filter_eq_nil_iff.mp hcur0 m hm
        simpa using this
      have hres := ih ⟨k + 1, hrest⟩ P
        (by
          intro m hmL hmS
          by_cases hml : m ∈ layer
          · exact hlayerP m hml
          · refine hyp1 m hmL ?_
            rw [List.flatten_cons]
            intro hc
            rcases List.mem_append.mp hc with h | h
            · exact hml h
            · exact hmS h)
        hyp2
        (by
          intro m hmP hmS
          obtain ⟨x, hx1, hx2, hx3, hx4⟩ := hyp3 m hmP
            (by rw [List.flatten_cons]; exact List.mem_append.mpr (Or.inr hmS))
          refine ⟨x, hx1, ?_, hx3, hx4⟩
          intro hc
          refine hx2 ?_
          rw [List.flatten_cons]
          exact List.mem_append.mpr (Or.inr hc))
      refine hres.trans ?_
      rw [List.flatten_cons, List.filter_append, hcur0, List.nil_append]
    · rw [buildLayers]
      dsimp only
      rw [if_neg hcur0]
      set current := layer.filter (fun n => !(decide (n ∈ P))) with hcurdef
      set out := layerResult g current (decide (rest = [])) with houtdef
      have hcurN : current.Nodup := hlayerN.filter _
      have hcurlayer : ∀ x ∈ current, x ∈ layer := by
        intro x hx
        exact (mem_filter_notP.mp hx).1
      have hcurP : ∀ x ∈ current, x ∉ P := by
        intro x hx
        exact (mem_filter_notP.mp hx).2
      have hsubget : ∀ x ∈ current, x ∈ L.get ⟨k, hkl⟩ := by
        intro x hx
        rw [← hlayer_get]
        exact hcurlayer x hx
      have hTTsub : ∀ m ∈ layerTails g current, m ∈ rest.flatten := by
        intro m hm
        obtain ⟨x, hx, hmf, -⟩ := mem_layerTails g hm
        obtain ⟨j, hj, hkj, hmj⟩ :=
          followSeq_levels g hwf htop g.nodes.length x k hkl (hsubget x hx) m hmf
        rw [hrest]
        exact mem_drop_flatten_of_get (by omega) hj hmj
      have hTTP : ∀ m ∈ layerTails g current, m ∉ P := by
        intro m hm hmP
        obtain ⟨x, hx, hmf, -⟩ := mem_layerTails g hm
        obtain ⟨x', hx'1, hx'2, hx'3, hx'4⟩ := hyp3 m hmP
          (by rw [List.flatten_cons]; exact List.mem_append.mpr (Or.inr (hTTsub m hm)))
        rcases followSeq_overlap g hmf hx'3 with heq | hmem | hmem
        · subst heq
          refine hx'2 ?_
          rw [List.flatten_cons]
          exact List.mem_append.mpr (Or.inl (hcurlayer x hx))
        · exact hcurP x hx (hx'4 x hmem)
        · obtain ⟨j, hj, hkj, hmj⟩ :=
            followSeq_levels g hwf htop g.nodes.length x k hkl (hsubget x hx) x' hmem
          refine hx'2 ?_
          rw [List.flatten_cons]
          refine List.mem_append.mpr (Or.inr ?_)
          rw [hrest]
          exact mem_drop_flatten_of_get (by omega) hj hmj
      have hTTN : (layerTails g current).Nodup :=
        layerTails_nodup g hwf htop hkl hcurN hsubget
      have hout2 : out.2.Perm (current ++ layerTails g current) :=
        layerResult_consumed_perm g current _
      have hmemout2 : ∀ m, m ∈ out.2 ↔ m ∈ current ∨ m ∈ layerTails g current := by
        intro m
        rw [hout2.mem_iff, List.mem_append]
      have hres := ih ⟨k + 1, hrest⟩ (P ++ out.2)
        (by
          intro m hmL hmS
          by_cases hml : m ∈ layer
          · by_cases hmP : m ∈ P
            · exact List.mem_append.mpr (Or.inl hmP)
            · refine List.mem_append.mpr (Or.inr ?_)
              rw [hmemout2]
              exact Or.inl (mem_filter_notP.mpr ⟨hml, hmP⟩)
          · refine List.mem_append.mpr (Or.inl ?_)
            refine hyp1 m hmL ?_
            rw [List.flatten_cons]
            intro hc
            rcases List.mem_append.mp hc with h | h
            · exact hml h
            · exact hmS h)
        (by
          intro m hm
          rcases List.mem_append.mp hm with h | h
          · exact hyp2 m h
          · rcases (hmemout2 m).mp h with h | h
            · exact hlayermem m (hcurlayer m h)
            · exact hrestmem m (hTTsub m h))
        (by
          intro m hm hmS
          rcases List.mem_append.mp hm with hmP | hmout
          · obtain ⟨x, hx1, hx2, hx3, hx4⟩ := hyp3 m hmP
              (by rw [List.flatten_cons]; exact List.mem_append.mpr (Or.inr hmS))
            refine ⟨x, hx1, ?_, hx3, fun y hy => List.mem_append.mpr (Or.inl (hx4 y hy))⟩
            intro hc
            refine hx2 ?_
            rw [List.flatten_cons]
            exact List.mem_append.mpr (Or.inr hc)
          · rcases (hmemout2 m).mp hmout with hmc | hmT
            · exact absurd hmS (hdisjLF (hcurlayer m hmc))
            · obtain ⟨x, hx, hmf, hall⟩ := mem_layerTails g hmT
              refine ⟨x, hlayermem x (hcurlayer x hx), ?_, hmf, ?_⟩
              · intro hc
                exact hdisjLF (hcurlayer x hx) hc
              · intro y hy
                refine List.mem_append.mpr (Or.inr ?_)
                rw [hmemout2]
                exact Or.inr (hall y hy))
      rw [extract_nodes_list_append, layerResult_leaves_eq]
      have hstep2 : ((layerTails g current) ++
          (rest.flatten.filter (fun n => !(decide (n ∈ P ++ out.2))))).Perm
          (rest.flatten.filter (fun n => !(decide (n ∈ P)))) := by
        apply (List.perm_ext_iff_of_nodup ?_ ?_).mpr
        · intro z
          rw [List.mem_append, mem_filter_notP, mem_filter_notP]
          constructor
          · rintro (hz | ⟨hz1, hz2⟩)
            · exact ⟨hTTsub z hz, hTTP z hz⟩
            · refine ⟨hz1, fun hc => hz2 (List.mem_append.mpr (Or.inl hc))⟩
          · rintro ⟨hz1, hz2⟩
            by_cases hzT : z ∈ layerTails g current
            · exact Or.inl hzT
            · refine Or.inr ⟨hz1, ?_⟩
              intro hc
              rcases List.mem_append.mp hc with h | h
              · exact hz2 h
              · rcases (hmemout2 z).mp h with h | h
                · exact hdisjLF (hcurlayer z h) hz1
                · exact hzT h
        · refine List.Nodup.append hTTN (hFrestN.filter _) ?_
          intro z hzT hzf
          obtain ⟨-, hz2⟩ := mem_filter_notP.mp hzf
          refine hz2 (List.mem_append.mpr (Or.inr ?_))
          rw [hmemout2]
          exact Or.inr hzT
        · exact hFrestN.filter _
      have hassemble : (out.2 ++
          (rest.flatten.filter (fun n => !(decide (n ∈ P ++ out.2))))).Perm
          (current ++ (rest.flatten.filter (fun n => !(decide (n ∈ P))))) := by
        refine (hout2.append_right _).trans ?_
        rw [List.append_assoc]
        exact List.Perm.append_left current hstep2
      refine ((List.Perm.append_left out.2 hres).trans hassemble).trans ?_
      rw [List.flatten_cons, List.filter_append]

theorem extract_nodes_combineLayerResults (ts : List Structure) :
    extract_nodes (combineLayerResults ts) = extract_nodes_list ts := by
  match ts with
  | [] => rfl
  | [u] =>
    show extract_nodes u = extract_nodes u ++ []
    rw [List.append_nil]
  | u :: v :: us => rfl

/-- Partition property of the structurer: on an acyclic well-formed graph
the leaf list of the tree is a permutation of the graph's node list. -/
theorem generate_leaves_perm_nodes (g : Graph) (hwf : g.WF) (t : Structure)
    (h : generate_component_structure g = .ok (some t)) :
    (extract_nodes t).Perm g.nodes := by
  unfold generate_component_structure at h
  cases htop : topological_generations g with
  | error e => rw [htop] at h; cases h
  | ok layers =>
    rw [htop] at h
    have hflat : layers.flatten.Perm g.nodes := by
      have h' := htop
      unfold topological_generations at h'
      exact peelLayers_flatten_perm g _ _ _ h'
    have hgen : t = combineLayerResults (buildLayers g [] layers) →
        (extract_nodes t).Perm g.nodes := by
      intro ht
      subst ht
      rw [extract_nodes_combineLayerResults]
      have hleaves := buildLayers_leaves_perm g hwf htop layers ⟨0, (List.drop_zero layers).symm⟩ []
        (by intro m hmL hmS; exact absurd hmL hmS)
        (by intro m hm; exact absurd hm (List.not_mem_nil m))
        (by intro m hm; exact absurd hm (List.not_mem_nil m))
      have hfilter : layers.flatten.filter (fun n => !(decide (n ∈ ([] : List String)))) =
          layers.flatten := by
        rw [List.filter_eq_self]
        intro a _
        simp
      rw [hfilter] at hleaves
      exact hleaves.trans hflat
    match layers, h with
    | [[n]], h =>
      injection h with h
      injection h with h
      subst h
      show List.Perm [n] g.nodes
      exact hflat
    | [], h => cases h
    | [] :: ls, h =>
      injection h with h
      injection h with h
      exact hgen h.symm
    | (a :: b :: l) :: ls, h =>
      injection h with h
      injection h with h
      exact hgen h.symm
    | [a] :: l₂ :: ls, h =>
      injection h with h
      injection h with h
      exact hgen h.symm

/-- Claim C9 (partition property): on every acyclic well-formed graph the
tree built by `generate_component_structure` carries each task of the graph
exactly once — its leaf list is a permutation of the graph's node list. -/
theorem generate_component_structure_partition (g : Graph) (hwf : g.WF) (t : Structure)
    (h : generate_component_structure g = .ok (some t)) :
    (extract_nodes t).Perm g.nodes :=
  generate_leaves_perm_nodes g hwf t h

/-- Witness for C9 at the diamond: the tree's leaves [A, B, C, D] are a
permutation of the graph's nodes. -/
theorem generate_component_structure_partition_witness :
    (extract_nodes (.seq [.node "A", .par [.node "B", .node "C"], .node "D"])).Perm
      diamondGraph.nodes :=
  generate_component_structure_partition diamondGraph (by decide) _ (by decide)

mutual

theorem noSingleton_wfTree : ∀ t : Structure, noSingleton t = true → wfTree t = true
  | .node _, _ => rfl
  | .seq cs, h => by
    rw [noSingleton, Bool.and_eq_true, decide_eq_true_iff] at h
    rw [wfTree, Bool.and_eq_true]
    refine ⟨?_, noSingletonList_wfTreeList cs h.2⟩
    rw [Bool.not_eq_true', List.isEmpty_eq_false]
    intro hc
    rw [hc] at h
    simpa using h.1
  | .par cs, h => by
    rw [noSingleton, Bool.and_eq_true, decide_eq_true_iff] at h
    rw [wfTree, Bool.and_eq_true]
    refine ⟨?_, noSingletonList_wfTreeList cs h.2⟩
    rw [Bool.not_eq_true', List.isEmpty_eq_false]
    intro hc
    rw [hc] at h
    simpa using h.1

theorem noSingletonList_wfTreeList : ∀ cs : List Structure,
    noSingletonList cs = true → wfTreeList cs = true
  | [], _ => rfl
  | c :: cs, h => by
    rw [noSingletonList, Bool.and_eq_true] at h
    rw [wfTreeList, Bool.and_eq_true]
    exact ⟨noSingleton_wfTree c h.1, noSingletonList_wfTreeList cs h.2⟩

end

theorem dedupFirst_eq_self {α : Type} [DecidableEq α] :
    ∀ (l seen : List α), l.Nodup → (∀ a ∈ l, a ∉ seen) → dedupFirst seen l = l := by
  intro l
  induction l with
  | nil => intro seen _ _; rfl
  | cons b rest ih =>
    intro seen hnd hsub
    rw [dedupFirst, if_neg (hsub b (List.mem_cons_self b rest))]
    congr 1
    refine ih (b :: seen) (List.nodup_cons.mp hnd).2 ?_
    intro a ha hc
    rcases List.mem_cons.mp hc with rfl | hmem
    · exact (List.nodup_cons.mp hnd).1 ha
    · exact hsub a (List.mem_cons_of_mem b ha) hmem

/-- Amended claim C1: for every acyclic well-formed graph the round trip
`flatten (structure G)` preserves the node set — the emitted node list is a
permutation of the graph's nodes.  (The reachability relation, by contrast,
is not preserved in general; see the counterexample.) -/
theorem structure_flatten_preserves_node_set (g : Graph) (hwf : g.WF) (t : Structure)
    (h : generate_component_structure g = .ok (some t)) :
    ∃ ns es, convert_to_dot t = .ok (ns, es) ∧ ns.Perm g.nodes := by
  have hns : noSingleton t = true := generate_component_structure_noSingleton g t h
  have hwt : wfTree t = true := noSingleton_wfTree t hns
  obtain ⟨E, X, hgen, -, -, -⟩ := generate_edges_wf t hwt
  have hleaves : (extract_nodes t).Perm g.nodes :=
    generate_leaves_perm_nodes g hwf t h
  have hlN : (extract_nodes t).Nodup := hleaves.nodup_iff.mpr hwf.1
  refine ⟨pySorted (dedupFirst [] (extract_nodes t)), dedupFirst [] E, ?_, ?_⟩
  · unfold convert_to_dot
    rw [hgen]
  · rw [dedupFirst_eq_self _ [] hlN (by intro a _ hc; exact absurd hc (List.not_mem_nil a))]
    exact (pySorted_perm _).trans hleaves

/-- Witness for the amended C1 at the diamond graph. -/
theorem structure_flatten_preserves_node_set_witness :
    ∃ ns es, convert_to_dot (.seq [.node "A", .par [.node "B", .node "C"], .node "D"]) =
      .ok (ns, es) ∧ ns.Perm diamondGraph.nodes :=
  structure_flatten_preserves_node_set diamondGraph (by decide) _ (by decide)
